import Mathlib

/-!
# Verification of the AuraAI whiteboard pipeline

A shallow embedding of `backend/services/whiteboard_graph.py`:

* `parse_json_response` — the defensive JSON extraction step
  (`WhiteboardGraphService._parse_json_response`), including the
  synthetic-node repair loop;
* `generate_fallback_graph` — the heuristic fallback extractor
  (`_generate_fallback_graph`);
* `extractConceptGraph` — the composition used by `_extract_concepts_node`
  (parse on success, heuristic fallback when the parse step raises);
* `create_empty_snapshot` / `build_initial_board` — the radial layout
  builder (`_create_empty_snapshot`, `_build_initial_board_node`).

Python strings are modelled as Lean `String`/`List Char` with the string
methods (`strip`, `split`, `isalpha`, `capitalize`, `title`, `replace`)
reimplemented at the ASCII level.  Python `dict`s keyed by strings are
modelled as association lists with insertion-order semantics: inserting an
existing key overwrites the value in place, a new key is appended
(`pyInsert`).  Fallible Python code (statements that can raise) is modelled
with `Except Unit`; `json.loads` is modelled by an executable recursive
descent JSON parser over `List Char` (decode failure = the caught
`JSONDecodeError`).  JSON numbers are kept as raw lexemes — no claim
depends on numeric values — and Python cross-type equalities such as
`True == 1` are not modelled.  Floating point coordinates are idealised:
the layout builder is parameterised by a coordinate field `K` together
with the trigonometric operations it uses, and `buildLayoutR` instantiates
it at the real numbers.
-/

namespace AuraAI

/-! ## Python string primitives (ASCII model) -/

/-- Characters treated as whitespace by Python's `str.strip` / `str.split`
(ASCII fragment). -/
def pyIsSpace (c : Char) : Bool :=
  c = ' ' || c = '\t' || c = '\n' || c = '\r' || c = '\x0b' || c = '\x0c'

/-- Python `str.strip()` on a character list. -/
def pyStripChars (cs : List Char) : List Char :=
  ((cs.dropWhile pyIsSpace).reverse.dropWhile pyIsSpace).reverse

/-- Python `str.strip()`. -/
def pyStrip (s : String) : String :=
  (pyStripChars s.toList).asString

/-- Word accumulator for `str.split()`: `cur` holds the reversed
characters of the word being read. -/
def pySplitGo : List Char → List Char → List String
  | cur, [] => if cur.isEmpty then [] else [cur.reverse.asString]
  | cur, c :: rest =>
    if pyIsSpace c then
      if cur.isEmpty then pySplitGo [] rest
      else cur.reverse.asString :: pySplitGo [] rest
    else pySplitGo (c :: cur) rest

/-- Python `str.split()` (no argument): split on whitespace runs,
discarding empty fragments. -/
def pySplit (s : String) : List String :=
  pySplitGo [] s.toList

/-- Python `str.isalpha()` (ASCII fragment): nonempty and all letters. -/
def pyIsAlpha (s : String) : Bool :=
  s ≠ "" && s.toList.all Char.isAlpha

/-- Python `str.capitalize()`: first character uppercased, the rest
lowercased. -/
def pyCapitalize (s : String) : String :=
  match s.toList with
  | [] => ""
  | c :: rest => (c.toUpper :: rest.map Char.toLower).asString

/-- One step of Python `str.title()`: a letter following a non-letter is
uppercased, a letter following a letter is lowercased. -/
def pyTitleGo : Bool → List Char → List Char
  | _, [] => []
  | prevAlpha, c :: rest =>
    if c.isAlpha then
      (if prevAlpha then c.toLower else c.toUpper) :: pyTitleGo true rest
    else
      c :: pyTitleGo false rest

/-- Python `str.title()` (ASCII fragment). -/
def pyTitle (s : String) : String :=
  (pyTitleGo false s.toList).asString

/-- `s.replace("_", " ")` (single-character pattern). -/
def replaceUnderscores (s : String) : String :=
  (s.toList.map (fun c => if c = '_' then ' ' else c)).asString

/-- The id-humanizing expression `edge[key].replace("_", " ").title()`
from `_parse_json_response`. -/
def humanize (s : String) : String :=
  pyTitle (replaceUnderscores s)

end AuraAI

namespace AuraAI

/-! ## JSON values

Python `json.loads` output is modelled by `Json`.  Numbers keep their raw
lexeme (`num`); object field lists are built with last-duplicate-wins
semantics, mirroring `dict` construction. -/

inductive Json where
  | null : Json
  | bool (b : Bool) : Json
  | num (raw : String) : Json
  | str (s : String) : Json
  | arr (elems : List Json) : Json
  | obj (fields : List (String × Json)) : Json

mutual

/-- Structural boolean equality on `Json` (kept structurally recursive so
that it evaluates definitionally on concrete inputs inside proofs). -/
def Json.beq : Json → Json → Bool
  | .null, .null => true
  | .bool a, .bool b => a == b
  | .num a, .num b => a == b
  | .str a, .str b => a == b
  | .arr xs, .arr ys => Json.beqList xs ys
  | .obj fs, .obj gs => Json.beqFields fs gs
  | _, _ => false

def Json.beqList : List Json → List Json → Bool
  | [], [] => true
  | x :: xs, y :: ys => Json.beq x y && Json.beqList xs ys
  | _, _ => false

def Json.beqFields : List (String × Json) → List (String × Json) → Bool
  | [], [] => true
  | (k, v) :: xs, (l, w) :: ys => k == l && Json.beq v w && Json.beqFields xs ys
  | _, _ => false

end

theorem Json.beq_iff : ∀ a b : Json, (Json.beq a b = true ↔ a = b) := by
  intro a
  refine @Json.rec (fun a => ∀ b, Json.beq a b = true ↔ a = b)
    (fun xs => ∀ ys, Json.beqList xs ys = true ↔ xs = ys)
    (fun fs => ∀ gs, Json.beqFields fs gs = true ↔ fs = gs)
    (fun p => ∀ q : String × Json, (p.1 == q.1 && Json.beq p.2 q.2) = true ↔ p = q)
    ?_ ?_ ?_ ?_ ?_ ?_ ?_ ?_ ?_ ?_ ?_ a
  · intro b; cases b <;> simp [Json.beq]
  · intro x b; cases b <;> simp [Json.beq]
  · intro x b; cases b <;> simp [Json.beq]
  · intro x b; cases b <;> simp [Json.beq]
  · intro xs ih b
    cases b <;> simp [Json.beq]
    exact ih _
  · intro fs ih b
    cases b <;> simp [Json.beq]
    exact ih _
  · intro ys; cases ys <;> simp [Json.beqList]
  · intro x xs ihx ihxs ys
    cases ys with
    | nil => simp [Json.beqList]
    | cons y yt =>
      rw [show Json.beqList (x :: xs) (y :: yt) = (Json.beq x y && Json.beqList xs yt)
        from rfl]
      rw [Bool.and_eq_true, ihx y, ihxs yt]
      simp
  · intro gs; cases gs <;> simp [Json.beqFields]
  · intro p ps ihp ihps gs
    cases gs with
    | nil => cases p; simp [Json.beqFields]
    | cons g gt =>
      cases p with
      | mk k v =>
        cases g with
        | mk l w =>
          rw [show Json.beqFields ((k, v) :: ps) ((l, w) :: gt)
            = ((k == l && Json.beq v w) && Json.beqFields ps gt) from rfl]
          have h1 : (k == l && Json.beq v w) = true ↔ (k, v) = (l, w) := ihp (l, w)
          rw [Bool.and_eq_true, h1, ihps gt]
          simp
  · intro k v ihv q
    cases q with
    | mk l w =>
      show (k == l && Json.beq v w) = true ↔ _
      rw [Bool.and_eq_true, ihv w]
      simp

def Json.decEq (a b : Json) : Decidable (a = b) :=
  decidable_of_iff (Json.beq a b = true) (Json.beq_iff a b)

instance : DecidableEq Json := Json.decEq

/-- Field lookup on a JSON object (`dict.get` / `dict[k]` when the key is
present); object keys are unique by construction, so first match wins. -/
def objGet (fields : List (String × Json)) (k : String) : Option Json :=
  (fields.find? (fun p => p.1 = k)).map (·.2)

/-- Insert into a JSON object under construction with `dict` semantics:
an existing key is overwritten in place, a new key is appended. -/
def objInsert (fields : List (String × Json)) (k : String) (v : Json) :
    List (String × Json) :=
  if fields.any (fun p => p.1 = k) then
    fields.map (fun p => if p.1 = k then (k, v) else p)
  else
    fields ++ [(k, v)]

/-- Python truthiness of the values `json.loads` can produce.  A number is
falsy exactly when its mantissa has no nonzero digit (`0`, `-0.0`,
`0e10`, …); `NaN` and `Infinity` lexemes are truthy. -/
def Json.truthy : Json → Bool
  | .null => false
  | .bool b => b
  | .num raw =>
    ((raw.toList.takeWhile (fun c => c ≠ 'e' && c ≠ 'E')).any
        (fun c => c.isDigit && c ≠ '0'))
      || raw.toList.any (fun c => c = 'N' || c = 'I')
  | .str s => s ≠ ""
  | .arr xs => xs ≠ []
  | .obj fs => fs ≠ []

/-- Whether a Python value may be a member of a `set` (hashable).  Lists
and dicts raise `TypeError`. -/
def Json.hashable : Json → Bool
  | .arr _ => false
  | .obj _ => false
  | _ => true

end AuraAI

namespace AuraAI

/-! ## A model of `json.loads`

A recursive descent parser over `List Char`, following the JSON grammar
accepted by Python's `json.loads` in its default configuration: the four
structural whitespace characters, `true` / `false` / `null`, double-quoted
strings with the standard escapes, numbers (with Python's additional
`NaN` / `Infinity` / `-Infinity` literals, kept as raw lexemes), arrays
and objects (duplicate object keys: the last one wins).  The parse
succeeds only if nothing but whitespace follows the value.  Recursion is
fuelled; `jsonDecode` supplies more fuel than any input of its length can
consume, and fuel exhaustion counts as a parse failure. -/

/-- JSON structural whitespace (this is narrower than `pyIsSpace`). -/
def jsonWs (c : Char) : Bool :=
  c = ' ' || c = '\t' || c = '\n' || c = '\r'

def skipWs (cs : List Char) : List Char :=
  cs.dropWhile jsonWs

def hexVal (c : Char) : Option Nat :=
  if '0' ≤ c ∧ c ≤ '9' then some (c.toNat - '0'.toNat)
  else if 'a' ≤ c ∧ c ≤ 'f' then some (c.toNat - 'a'.toNat + 10)
  else if 'A' ≤ c ∧ c ≤ 'F' then some (c.toNat - 'A'.toNat + 10)
  else none

/-- The single-character string escapes of JSON. -/
def simpleEsc (e : Char) : Option Char :=
  if e = '"' then some '"'
  else if e = '\\' then some '\\'
  else if e = '/' then some '/'
  else if e = 'b' then some '\x08'
  else if e = 'f' then some '\x0c'
  else if e = 'n' then some '\n'
  else if e = 'r' then some '\r'
  else if e = 't' then some '\t'
  else none

/-- Scan the body of a string literal (after the opening quote), returning
the sequence of code units and the rest of the input after the closing
quote.  Control characters are rejected (strict mode); a `\uXXXX` escape
contributes its raw code unit. -/
def scanStringUnits : Nat → List Char → Option (List Nat × List Char)
  | 0, _ => none
  | _ + 1, [] => none
  | fuel + 1, c :: rest =>
    if c = '"' then some ([], rest)
    else if c = '\\' then
      match rest with
      | [] => none
      | e :: rest2 =>
        if e = 'u' then
          match rest2 with
          | h1 :: h2 :: h3 :: h4 :: rest3 =>
            match hexVal h1, hexVal h2, hexVal h3, hexVal h4 with
            | some a, some b, some c3, some d =>
              match scanStringUnits fuel rest3 with
              | some (tail, rem) => some ((((a * 16 + b) * 16 + c3) * 16 + d) :: tail, rem)
              | none => none
            | _, _, _, _ => none
          | _ => none
        else
          match simpleEsc e with
          | some d =>
            match scanStringUnits fuel rest2 with
            | some (tail, rem) => some (d.toNat :: tail, rem)
            | none => none
          | none => none
    else if c.toNat < 0x20 then none
    else
      match scanStringUnits fuel rest with
      | some (tail, rem) => some (c.toNat :: tail, rem)
      | none => none

/-- Combine a high surrogate followed by a low surrogate into the code
point they encode, as Python's JSON string decoder does. -/
def combineSurrogates : List Nat → List Nat
  | a :: b :: rest =>
    if 0xD800 ≤ a ∧ a ≤ 0xDBFF ∧ 0xDC00 ≤ b ∧ b ≤ 0xDFFF then
      (0x10000 + (a - 0xD800) * 0x400 + (b - 0xDC00)) :: combineSurrogates rest
    else
      a :: combineSurrogates (b :: rest)
  | x => x

/-- Scan a string literal body and decode it to characters. -/
def scanString (cs : List Char) : Option (List Char × List Char) :=
  match scanStringUnits (cs.length + 1) cs with
  | some (units, rem) => some ((combineSurrogates units).map Char.ofNat, rem)
  | none => none

/-- Scan a JSON number starting at the input (which must start with `-` or
a digit), returning its raw lexeme.  Grammar: `-? (0 | [1-9][0-9]*)
(. [0-9]+)? ([eE][+-]? [0-9]+)?`. -/
def scanNumber (cs : List Char) : Option (List Char × List Char) :=
  let (sign, afterSign) :=
    match cs with
    | '-' :: rest => (['-'], rest)
    | _ => (([] : List Char), cs)
  match afterSign with
  | [] => none
  | d :: rest =>
    if ¬ d.isDigit then none
    else if d = '0' ∧ (rest.headD ' ').isDigit then none
    else
      let intDigits := d :: rest.takeWhile Char.isDigit
      let afterInt := rest.dropWhile Char.isDigit
      let (fracPart, afterFrac) :=
        match afterInt with
        | '.' :: f :: frest =>
          if f.isDigit then
            ('.' :: f :: frest.takeWhile Char.isDigit, frest.dropWhile Char.isDigit)
          else (([] : List Char), afterInt)
        | _ => (([] : List Char), afterInt)
      if fracPart = [] ∧ afterInt.headD ' ' = '.' then none
      else
        let (expPart, afterExp) :=
          match afterFrac with
          | e :: erest =>
            if e = 'e' ∨ e = 'E' then
              let (esign, edigits) :=
                match erest with
                | s :: srest => if s = '+' ∨ s = '-' then ([s], srest) else (([] : List Char), erest)
                | [] => (([] : List Char), erest)
              match edigits with
              | x :: _ =>
                if x.isDigit then
                  (e :: esign ++ edigits.takeWhile Char.isDigit, edigits.dropWhile Char.isDigit)
                else (([] : List Char), afterFrac)
              | [] => (([] : List Char), afterFrac)
            else (([] : List Char), afterFrac)
          | [] => (([] : List Char), afterFrac)
        if expPart = [] ∧ (afterFrac.headD ' ' = 'e' ∨ afterFrac.headD ' ' = 'E') then none
        else some (sign ++ intDigits ++ fracPart ++ expPart, afterExp)

mutual

/-- Parse one JSON value (leading whitespace already skipped). -/
def parseValue : Nat → List Char → Option (Json × List Char)
  | 0, _ => none
  | _ + 1, [] => none
  | fuel + 1, c :: rest =>
    if c = '"' then
      match scanString rest with
      | some (chars, rem) => some (.str chars.asString, rem)
      | none => none
    else if c = '\x7b' then
      parseObjBody fuel (skipWs rest) []
    else if c = '[' then
      parseArrBody fuel (skipWs rest) []
    else if c = 't' then
      match rest with
      | 'r' :: 'u' :: 'e' :: rem => some (.bool true, rem)
      | _ => none
    else if c = 'f' then
      match rest with
      | 'a' :: 'l' :: 's' :: 'e' :: rem => some (.bool false, rem)
      | _ => none
    else if c = 'n' then
      match rest with
      | 'u' :: 'l' :: 'l' :: rem => some (.null, rem)
      | _ => none
    else if c = 'N' then
      match rest with
      | 'a' :: 'N' :: rem => some (.num "NaN", rem)
      | _ => none
    else if c = 'I' then
      match rest with
      | 'n' :: 'f' :: 'i' :: 'n' :: 'i' :: 't' :: 'y' :: rem => some (.num "Infinity", rem)
      | _ => none
    else if c = '-' ∧ rest.headD ' ' = 'I' then
      match rest with
      | 'I' :: 'n' :: 'f' :: 'i' :: 'n' :: 'i' :: 't' :: 'y' :: rem =>
        some (.num "-Infinity", rem)
      | _ => none
    else
      match scanNumber (c :: rest) with
      | some (raw, rem) => some (.num raw.asString, rem)
      | none => none

/-- Parse the remainder of an array after `[` (whitespace already
skipped); `acc` holds the elements parsed so far, in reverse. -/
def parseArrBody : Nat → List Char → List Json → Option (Json × List Char)
  | 0, _, _ => none
  | _ + 1, [], _ => none
  | fuel + 1, c :: rest, acc =>
    if c = ']' ∧ acc = [] then some (.arr [], rest)
    else
      match parseValue fuel (c :: rest) with
      | some (v, rem) =>
        match skipWs rem with
        | ',' :: rem2 => parseArrBody fuel (skipWs rem2) (v :: acc)
        | ']' :: rem2 => some (.arr (v :: acc).reverse, rem2)
        | _ => none
      | none => none

/-- Parse the remainder of an object after `{` (whitespace already
skipped); `acc` holds the members parsed so far, with duplicate keys
resolved as `dict` construction does. -/
def parseObjBody : Nat → List Char → List (String × Json) → Option (Json × List Char)
  | 0, _, _ => none
  | _ + 1, [], _ => none
  | fuel + 1, c :: rest, acc =>
    if c = '\x7d' ∧ acc = [] then some (.obj [], rest)
    else if c = '"' then
      match scanString rest with
      | some (keyChars, rem) =>
        match skipWs rem with
        | ':' :: rem2 =>
          match parseValue fuel (skipWs rem2) with
          | some (v, rem3) =>
            let acc2 := objInsert acc keyChars.asString v
            match skipWs rem3 with
            | ',' :: rem4 =>
              match skipWs rem4 with
              | '"' :: rem5 => parseObjBody fuel ('"' :: rem5) acc2
              | _ => none
            | '\x7d' :: rem4 => some (.obj acc2, rem4)
            | _ => none
          | none => none
        | _ => none
      | none => none
    else none

end

/-- `json.loads`: parse a complete JSON document — one value surrounded by
optional whitespace. -/
def jsonDecode (cs : List Char) : Option Json :=
  match parseValue (cs.length + 1) (skipWs cs) with
  | some (v, rem) => if skipWs rem = [] then some v else none
  | none => none

end AuraAI

namespace AuraAI

/-! ## `_parse_json_response`: defensive graph extraction

The returned graph keeps the raw parsed dictionaries, as the Python code
does.  `Except Unit` models exceptions that escape
`_parse_json_response` (only `json.JSONDecodeError` is caught there);
iterable non-list `nodes` / `edges` values, which Python would either
iterate or return as-is, are modelled as failures — every claim below
concerns the list-valued cases. -/

/-- A concept graph as returned by `_parse_json_response` /
`_generate_fallback_graph`: the raw `nodes` and `edges` collections. -/
structure RawGraph where
  nodes : List Json
  edges : List Json
deriving DecidableEq

/-- Markdown fence stripping, from the head of `_parse_json_response`:
strip, drop a leading ```` ```json ```` or ```` ``` ````, drop a trailing
```` ``` ````, strip again. -/
def stripFences (cs : List Char) : List Char :=
  let c1 := pyStripChars cs
  let c2 :=
    if "```json".toList.isPrefixOf c1 then c1.drop 7
    else if "```".toList.isPrefixOf c1 then c1.drop 3
    else c1
  let c3 := if "```".toList.isSuffixOf c2 then c2.take (c2.length - 3) else c2
  pyStripChars c3

/-- The brace-window selection `content[content.find("{") :
content.rfind("}") + 1]`, guarded by `start != -1 and end > start`:
`dropWhile` reaches the first `{`, and the reversed `dropWhile` cuts
everything after the last `}` (which must not precede the first `{`). -/
def braceSlice (cs : List Char) : Option (List Char) :=
  let fromBrace := cs.dropWhile (fun c => c ≠ '\x7b')
  if '\x7d' ∈ fromBrace then
    some (fromBrace.reverse.dropWhile (fun c => c ≠ '\x7d')).reverse
  else
    none

/-- `n["id"]` as evaluated inside the set comprehension
`{n["id"] for n in nodes}`: raises unless `n` is a dict with an `"id"`
key whose value is hashable. -/
def getIdVal (n : Json) : Except Unit Json :=
  match n with
  | .obj fs =>
    match objGet fs "id" with
    | some v => if v.hashable then .ok v else .error ()
    | none => .error ()
  | _ => .error ()

/-- A synthesized node, `{"id": edge[key], "label":
edge[key].replace("_", " ").title(), "description": ""}`. -/
def mkSynthNode (s : String) : Json :=
  .obj [("id", .str s), ("label", .str (humanize s)), ("description", .str "")]

/-- One endpoint of the repair loop: given the known-id set and the nodes
appended so far, process `edge.get(key)`.  An absent or falsy value is
skipped; a truthy unhashable value raises (`TypeError` in the membership
test); a known id is skipped; a new truthy id must be a string (otherwise
`.replace` raises `AttributeError`) and synthesizes one node. -/
def endpointStep (acc : List Json × List Json) (vOpt : Option Json) :
    Except Unit (List Json × List Json) :=
  match vOpt with
  | none => .ok acc
  | some v =>
    if ¬ v.truthy then .ok acc
    else if ¬ v.hashable then .error ()
    else if v ∈ acc.1 then .ok acc
    else
      match v with
      | .str s => .ok (v :: acc.1, acc.2 ++ [mkSynthNode s])
      | _ => .error ()

/-- One iteration of `for edge in edges`: `edge` must be a dict
(otherwise `.get` raises `AttributeError`); its `source` is processed
before its `target`. -/
def edgeStep (acc : List Json × List Json) (e : Json) :
    Except Unit (List Json × List Json) :=
  match e with
  | .obj fs => do
    let acc1 ← endpointStep acc (objGet fs "source")
    endpointStep acc1 (objGet fs "target")
  | _ => .error ()

/-- The repair stage of `_parse_json_response` on the extracted `nodes`
and `edges` arrays: build the known-id set (raising as the set
comprehension would), run the synthetic-node loop over the edges, and
return the graph with the appended nodes. -/
def processArrays (ns es : List Json) : Except Unit RawGraph := do
  let ids0 ← ns.mapM getIdVal
  let res ← es.foldlM edgeStep (ids0, [])
  .ok ⟨ns ++ res.2, es⟩

/-- The body of `_parse_json_response` after a successful
`json.loads`: read `nodes` and `edges` (defaulting to `[]`) and run the
repair stage. -/
def postprocess (v : Json) : Except Unit RawGraph :=
  match v with
  | .obj fs =>
    match (objGet fs "nodes").getD (.arr []), (objGet fs "edges").getD (.arr []) with
    | .arr ns, .arr es => processArrays ns es
    | _, _ => .error ()
  | _ => .error ()

/-- `_parse_json_response`.  `Except.error` is an exception escaping the
method; `json.JSONDecodeError` (and a missing brace window) are handled
inside it by returning the empty graph. -/
def parse_json_response (content : String) : Except Unit RawGraph :=
  match braceSlice (stripFences content.toList) with
  | some sub =>
    match jsonDecode sub with
    | some v => postprocess v
    | none => .ok ⟨[], []⟩
  | none => .ok ⟨[], []⟩

/-- `_generate_fallback_graph`: first 100 whitespace tokens, keep
alphabetic tokens longer than 4 characters, keep the first 6, one branch
per kept token plus a central "Main Topic" node. -/
def generate_fallback_graph (text : String) : RawGraph :=
  let words := (pySplit text).take 100
  let important_words := (words.filter (fun w => w.length > 4 && pyIsAlpha w)).take 6
  { nodes :=
      Json.obj [("id", .str "central"), ("label", .str "Main Topic"), ("description", .str "")]
        :: important_words.enum.map (fun p =>
          Json.obj [("id", .str ("branch_" ++ Nat.repr p.1)),
                    ("label", .str (pyCapitalize p.2)),
                    ("description", .str "")])
    edges :=
      important_words.enum.map (fun p =>
        Json.obj [("source", .str "central"),
                  ("target", .str ("branch_" ++ Nat.repr p.1)),
                  ("label", .str "")]) }

/-- Concept extraction as a function of the model response `content` and
the original `input_text`: `_extract_concepts_node` stores the parse
result, falling back to `_generate_fallback_graph(input_text)` when any
exception escapes (upstream failures are outside this model). -/
def extractConceptGraph (content inputText : String) : RawGraph :=
  match parse_json_response content with
  | .ok g => g
  | .error _ => generate_fallback_graph inputText

end AuraAI

namespace AuraAI

/-! ## Concept graphs and canvas documents

`ConceptNode` / `ConceptEdge` / `ConceptGraph` mirror the `TypedDict`
declarations at the top of the service module; `_build_initial_board_node`
consumes such graphs.  The tldraw snapshot's store is a Python dict keyed
by record id; it is modelled as an association list built with `pyInsert`
(overwrite in place, append when new).  The `meta: {}` fields, constant
empty dicts, are omitted from the record model. -/

structure ConceptNode where
  id : String
  label : String
  description : Option String
deriving DecidableEq

structure ConceptEdge where
  source : String
  target : String
  label : Option String
deriving DecidableEq

structure ConceptGraph where
  nodes : List ConceptNode
  edges : List ConceptEdge
deriving DecidableEq

/-- The trigonometric/constant operations `_build_initial_board_node`
takes from `math`; the coordinate type `K` idealises Python floats. -/
structure TrigOps (K : Type) where
  pi : K
  cos : K → K
  sin : K → K

structure GeoProps (K : Type) where
  w : K
  h : K
  geo : String
  color : String
  labelColor : String
  fill : String
  dash : String
  size : String
  font : String
  text : String
  align : String
  verticalAlign : String
  growY : K
  url : String
deriving DecidableEq

structure ArrowBinding (K : Type) where
  boundShapeId : String
  anchorX : K
  anchorY : K
  isExact : Bool
  isPrecise : Bool
deriving DecidableEq

structure ArrowProps (K : Type) where
  dash : String
  size : String
  fill : String
  color : String
  labelColor : String
  bend : K
  start : ArrowBinding K
  finish : ArrowBinding K
  arrowheadStart : String
  arrowheadEnd : String
  text : String
  font : String
deriving DecidableEq

/-- One record of the tldraw store (`typeName` is the constructor;
`document` and `page` carry their literal fields). -/
inductive StoreRecord (K : Type) where
  | document (id : String) (gridSize : Nat) (name : String)
  | page (id : String) (name : String) (index : String)
  | geo (id : String) (x y rotation : K) (isLocked : Bool) (opacity : K)
      (props : GeoProps K) (parentId : String) (index : String)
  | arrow (id : String) (x y rotation : K) (isLocked : Bool) (opacity : K)
      (props : ArrowProps K) (parentId : String) (index : String)
deriving DecidableEq

structure SubTypedVersion where
  version : Nat
  subTypeKey : String
deriving DecidableEq

/-- The `recordVersions` block (the `instance` key is spelled
`instanceVer` since `instance` is a Lean keyword). -/
structure RecordVersions where
  asset : SubTypedVersion
  camera : Nat
  document : Nat
  instanceVer : Nat
  instancePageState : Nat
  page : Nat
  shape : SubTypedVersion
  instancePresence : Nat
  pointer : Nat
deriving DecidableEq

structure SnapshotSchema where
  schemaVersion : Nat
  storeVersion : Nat
  recordVersions : RecordVersions
deriving DecidableEq

structure Snapshot (K : Type) where
  store : List (String × StoreRecord K)
  schema : SnapshotSchema
deriving DecidableEq

/-- Python `dict` insertion: overwrite an existing key in place, append a
new key. -/
def pyInsert {α : Type} (l : List (String × α)) (kv : String × α) :
    List (String × α) :=
  if l.any (fun p => p.1 = kv.1) then
    l.map (fun p => if p.1 = kv.1 then kv else p)
  else
    l ++ [kv]

/-- Python `dict` lookup (`.get`). -/
def pyLookup {α : Type} (l : List (String × α)) (k : String) : Option α :=
  (l.find? (fun p => p.1 = k)).map (·.2)

def documentRecord (K : Type) : StoreRecord K :=
  .document "document:document" 10 ""

def pageRecord (K : Type) : StoreRecord K :=
  .page "page:page" "Page 1" "a1"

/-- The fixed schema/version block emitted with every snapshot. -/
def snapshotSchema : SnapshotSchema :=
  { schemaVersion := 1
    storeVersion := 4
    recordVersions :=
      { asset := ⟨1, "type"⟩
        camera := 1
        document := 2
        instanceVer := 22
        instancePageState := 5
        page := 1
        shape := ⟨3, "type"⟩
        instancePresence := 5
        pointer := 1 } }

/-- `_create_empty_snapshot`. -/
def create_empty_snapshot (K : Type) : Snapshot K :=
  { store := [("document:document", documentRecord K), ("page:page", pageRecord K)]
    schema := snapshotSchema }

end AuraAI

namespace AuraAI

/-! ## `_build_initial_board_node`: the radial layout -/

variable {K : Type}

/-- The branch color palette. -/
def colors : List String :=
  ["light-blue", "light-green", "yellow", "light-red", "orange", "violet"]

section Layout

variable [Field K]

/-- `angle = (2 * math.pi * i) / max(num_branches, 1) - math.pi / 2`. -/
def branchAngle (tri : TrigOps K) (i N : Nat) : K :=
  (2 * tri.pi * (i : K)) / ((max N 1 : Nat) : K) - tri.pi / 2

/-- The circle point recorded in `node_positions` for the `i`-th branch. -/
def branchPos (tri : TrigOps K) (i N : Nat) : K × K :=
  (600 + 300 * tri.cos (branchAngle tri i N),
   400 + 300 * tri.sin (branchAngle tri i N))

/-- The central ellipse record (key `shape:<id>` of the first node). -/
def centralShape (K : Type) [Field K] (c : ConceptNode) : StoreRecord K :=
  .geo ("shape:" ++ c.id) (600 - 100) (400 - 50) 0 false 1
    { w := 200, h := 100, geo := "ellipse", color := "blue", labelColor := "black"
      fill := "solid", dash := "draw", size := "l", font := "sans"
      text := c.label, align := "middle", verticalAlign := "middle"
      growY := 0, url := "" }
    "page:page" "a0"

/-- The `i`-th branch rectangle (of `N` branches). -/
def branchShape (tri : TrigOps K) (i N : Nat) (b : ConceptNode) : StoreRecord K :=
  .geo ("shape:" ++ b.id)
    ((branchPos tri i N).1 - 90) ((branchPos tri i N).2 - 35) 0 false 1
    { w := 180, h := 70, geo := "rectangle"
      color := colors.getD (i % colors.length) "", labelColor := "black"
      fill := "solid", dash := "draw", size := "m", font := "sans"
      text := b.label, align := "middle", verticalAlign := "middle"
      growY := 0, url := "" }
    "page:page" ("a" ++ Nat.repr (i + 1))

/-- The mandatory solid arrow from the central shape to branch `i`. -/
def mandatoryArrow (K : Type) [Field K] (i : Nat) (centralId shapeId : String) :
    StoreRecord K :=
  .arrow ("shape:arrow_" ++ Nat.repr i) 600 400 0 false 1
    { dash := "draw", size := "m", fill := "none", color := "grey"
      labelColor := "black", bend := 0
      start := ⟨centralId, 1/2, 1/2, false, false⟩
      finish := ⟨shapeId, 1/2, 1/2, false, false⟩
      arrowheadStart := "none", arrowheadEnd := "arrow", text := "", font := "draw" }
    "page:page" ("b" ++ Nat.repr i)

/-- The dashed arrow for the `i`-th entry of the original edge list (with
arrow index offset by the branch count); `sp` is the recorded position of
its source node. -/
def extraArrow (N i : Nat) (e : ConceptEdge) (sp : K × K) : StoreRecord K :=
  .arrow ("shape:arrow_" ++ Nat.repr (N + i)) sp.1 sp.2 0 false 1
    { dash := "dashed", size := "s", fill := "none", color := "grey"
      labelColor := "black", bend := 20
      start := ⟨"shape:" ++ e.source, 1/2, 1/2, false, false⟩
      finish := ⟨"shape:" ++ e.target, 1/2, 1/2, false, false⟩
      arrowheadStart := "none", arrowheadEnd := "arrow"
      text := e.label.getD "", font := "draw" }
    "page:page" ("c" ++ Nat.repr i)

/-- The `node_positions` dict: the central node at the canvas origin,
then one circle point per branch, in loop order. -/
def nodePositions (tri : TrigOps K) (c : ConceptNode) (branches : List ConceptNode) :
    List (String × (K × K)) :=
  List.foldl pyInsert []
    ((c.id, ((600 : K), (400 : K)))
      :: branches.enum.map (fun p => (p.2.id, branchPos tri p.1 branches.length)))

/-- The sequence of `shapes[...] = ...` insertions performed by
`_build_initial_board_node`, in program order: the central shape, then
for each branch its rectangle followed by its mandatory arrow, then one
dashed arrow per qualifying extra edge (both endpoints positioned and
source different from the central id). -/
def shapesSeq (tri : TrigOps K) (g : ConceptGraph) : List (String × StoreRecord K) :=
  match g.nodes with
  | [] => []
  | c :: branches =>
    let N := branches.length
    let pos := nodePositions tri c branches
    ("shape:" ++ c.id, centralShape K c)
      :: (branches.enum.flatMap (fun p =>
            [("shape:" ++ p.2.id, branchShape tri p.1 N p.2),
             ("shape:arrow_" ++ Nat.repr p.1,
              mandatoryArrow K p.1 ("shape:" ++ c.id) ("shape:" ++ p.2.id))]))
      ++ (g.edges.enum.filterMap (fun q =>
            match pyLookup pos q.2.source, pyLookup pos q.2.target with
            | some sp, some _ =>
              if q.2.source = c.id then none
              else some ("shape:arrow_" ++ Nat.repr (N + q.1), extraArrow N q.1 q.2 sp)
            | _, _ => none))

/-- The `shapes` dict of `_build_initial_board_node`. -/
def shapesDict (tri : TrigOps K) (g : ConceptGraph) : List (String × StoreRecord K) :=
  List.foldl pyInsert [] (shapesSeq tri g)

/-- `_build_initial_board_node`: empty graphs get the empty snapshot;
otherwise the store is the two container records followed by the shapes
dict (`{**records, **shapes}`), under the fixed schema block. -/
def build_initial_board (tri : TrigOps K) (g : ConceptGraph) : Snapshot K :=
  if g.nodes = [] then
    create_empty_snapshot K
  else
    { store :=
        List.foldl pyInsert
          [("document:document", documentRecord K), ("page:page", pageRecord K)]
          (shapesDict tri g)
      schema := snapshotSchema }

end Layout

/-- The layout builder over the real numbers, with the genuine `math.pi`,
`math.cos`, `math.sin`. -/
noncomputable def realTrig : TrigOps ℝ :=
  ⟨Real.pi, Real.cos, Real.sin⟩

/-- `buildLayout` of the specification, idealised over `ℝ`. -/
noncomputable def buildLayoutR : ConceptGraph → Snapshot ℝ :=
  build_initial_board realTrig

/-! ### Observers on snapshots -/

def Snapshot.storeGet (s : Snapshot K) (k : String) : Option (StoreRecord K) :=
  pyLookup s.store k

def Snapshot.storeKeys (s : Snapshot K) : List String :=
  s.store.map (·.1)

def StoreRecord.isRectangle : StoreRecord K → Bool
  | .geo _ _ _ _ _ _ props _ _ => props.geo = "rectangle"
  | _ => false

def StoreRecord.isEllipse : StoreRecord K → Bool
  | .geo _ _ _ _ _ _ props _ _ => props.geo = "ellipse"
  | _ => false

def StoreRecord.isArrow : StoreRecord K → Bool
  | .arrow _ _ _ _ _ _ _ _ _ => true
  | _ => false

def StoreRecord.posX : StoreRecord K → Option K
  | .geo _ x _ _ _ _ _ _ _ => some x
  | .arrow _ x _ _ _ _ _ _ _ => some x
  | _ => none

def StoreRecord.posY : StoreRecord K → Option K
  | .geo _ _ y _ _ _ _ _ _ => some y
  | .arrow _ _ y _ _ _ _ _ _ => some y
  | _ => none

/-- The `boundShapeId`s referenced by an arrow record (start then end). -/
def StoreRecord.boundIds : StoreRecord K → List String
  | .arrow _ _ _ _ _ _ props _ _ => [props.start.boundShapeId, props.finish.boundShapeId]
  | _ => []

def StoreRecord.propW : StoreRecord K → Option K
  | .geo _ _ _ _ _ _ props _ _ => some props.w
  | _ => none

def StoreRecord.propH : StoreRecord K → Option K
  | .geo _ _ _ _ _ _ props _ _ => some props.h
  | _ => none

/-- The `color` style attribute of a geo shape. -/
def StoreRecord.colorName : StoreRecord K → Option String
  | .geo _ _ _ _ _ _ props _ _ => some props.color
  | _ => none

/-- The `dash` style of an arrow record. -/
def StoreRecord.arrowDash : StoreRecord K → Option String
  | .arrow _ _ _ _ _ _ props _ _ => some props.dash
  | _ => none

/-- The `bend` of an arrow record. -/
def StoreRecord.arrowBend : StoreRecord K → Option K
  | .arrow _ _ _ _ _ _ props _ _ => some props.bend
  | _ => none

end AuraAI

namespace AuraAI

/-! ## Decimal representation: `Nat.repr` is injective

The layout derives arrow record ids via f-strings over loop indices;
distinctness of those ids reduces to injectivity of `Nat.repr`, proved
here against the core `Nat.toDigitsCore` implementation. -/

/-- The decimal digit list of `n`, as produced by `Nat.toDigitsCore`. -/
def decRepr (n : Nat) : List Char :=
  if h : n / 10 = 0 then [Nat.digitChar (n % 10)]
  else decRepr (n / 10) ++ [Nat.digitChar (n % 10)]
decreasing_by exact Nat.div_lt_self (Nat.pos_of_ne_zero (by omega)) (by omega)

theorem decRepr_ne_nil (n : Nat) : decRepr n ≠ [] := by
  unfold decRepr
  split <;> simp

theorem decRepr_of_last (n : Nat) (h : n / 10 = 0) :
    decRepr n = [Nat.digitChar (n % 10)] := by
  conv_lhs => rw [decRepr]
  rw [dif_pos h]

theorem decRepr_of_step (n : Nat) (h : n / 10 ≠ 0) :
    decRepr n = decRepr (n / 10) ++ [Nat.digitChar (n % 10)] := by
  conv_lhs => rw [decRepr]
  rw [dif_neg h]

theorem toDigitsCore_eq_decRepr :
    ∀ fuel n ds, n < fuel → Nat.toDigitsCore 10 fuel n ds = decRepr n ++ ds := by
  intro fuel
  induction fuel with
  | zero => intro n ds h; omega
  | succ f ih =>
    intro n ds h
    rw [Nat.toDigitsCore]
    by_cases h0 : n / 10 = 0
    · simp only [h0, if_pos]
      rw [decRepr_of_last n h0]
      simp
    · simp only [h0, if_neg, if_false]
      rw [ih (n / 10) _ (by omega), decRepr_of_step n h0]
      simp

theorem digitChar_inj_lt :
    ∀ a < 10, ∀ b < 10, Nat.digitChar a = Nat.digitChar b → a = b := by decide

theorem decRepr_injective : Function.Injective decRepr := by
  intro m
  induction m using Nat.strong_induction_on with
  | _ m ih =>
    intro n h
    by_cases hm : m / 10 = 0 <;> by_cases hn : n / 10 = 0
    · rw [decRepr_of_last m hm, decRepr_of_last n hn] at h
      have := digitChar_inj_lt (m % 10) (by omega) (n % 10) (by omega)
        (List.head_eq_of_cons_eq h)
      omega
    · rw [decRepr_of_last m hm, decRepr_of_step n hn] at h
      have hlen := congrArg List.length h
      simp at hlen
      exact absurd hlen (decRepr_ne_nil _)
    · rw [decRepr_of_step m hm, decRepr_of_last n hn] at h
      have hlen := congrArg List.length h.symm
      simp at hlen
      exact absurd hlen (decRepr_ne_nil _)
    · rw [decRepr_of_step m hm, decRepr_of_step n hn] at h
      obtain ⟨h1, h2⟩ := List.append_inj' h (by simp)
      have hq : m / 10 = n / 10 :=
        ih (m / 10) (Nat.div_lt_self (Nat.pos_of_ne_zero (by omega)) (by omega)) h1
      have hr : m % 10 = n % 10 :=
        digitChar_inj_lt (m % 10) (by omega) (n % 10) (by omega)
          (List.head_eq_of_cons_eq h2)
      omega

theorem repr_eq_decRepr (n : Nat) : Nat.repr n = (decRepr n).asString := by
  show (Nat.toDigits 10 n).asString = _
  rw [Nat.toDigits, toDigitsCore_eq_decRepr (n + 1) n [] (Nat.lt_succ_self n)]
  simp

theorem nat_repr_injective : Function.Injective Nat.repr := by
  intro m n h
  rw [repr_eq_decRepr, repr_eq_decRepr, List.asString_inj] at h
  exact decRepr_injective h

end AuraAI

namespace AuraAI

/-! ## Association-list lemmas for `pyInsert` / `pyLookup` -/

variable {α : Type}

theorem pyInsert_keys_of_mem (l : List (String × α)) (kv : String × α)
    (h : kv.1 ∈ l.map Prod.fst) :
    (pyInsert l kv).map Prod.fst = l.map Prod.fst := by
  have hany : l.any (fun p => p.1 = kv.1) = true := by
    rw [List.any_eq_true]
    obtain ⟨p, hp, hpk⟩ := List.mem_map.mp h
    exact ⟨p, hp, by simp [hpk]⟩
  unfold pyInsert
  rw [if_pos hany, List.map_map]
  apply List.map_congr_left
  intro p _
  by_cases hpk : p.1 = kv.1 <;> simp [hpk]

theorem pyInsert_of_not_mem (l : List (String × α)) (kv : String × α)
    (h : kv.1 ∉ l.map Prod.fst) :
    pyInsert l kv = l ++ [kv] := by
  have hany : l.any (fun p => p.1 = kv.1) = false := by
    rw [List.any_eq_false]
    intro p hp
    simp only [decide_eq_true_eq]
    intro hpk
    exact h (List.mem_map.mpr ⟨p, hp, hpk⟩)
  unfold pyInsert
  rw [if_neg (by simp [hany])]

theorem pyInsert_keys (l : List (String × α)) (kv : String × α) :
    (pyInsert l kv).map Prod.fst =
      if kv.1 ∈ l.map Prod.fst then l.map Prod.fst else l.map Prod.fst ++ [kv.1] := by
  by_cases h : kv.1 ∈ l.map Prod.fst
  · rw [if_pos h, pyInsert_keys_of_mem l kv h]
  · rw [if_neg h, pyInsert_of_not_mem l kv h, List.map_append]
    rfl

/-- The key list of a dict built by successive insertions, as a function
of the inserted keys alone. -/
def dedupKeys (base : List String) (ks : List String) : List String :=
  ks.foldl (fun acc k => if k ∈ acc then acc else acc ++ [k]) base

theorem foldl_pyInsert_keys (seq : List (String × α)) :
    ∀ base : List (String × α),
      (List.foldl pyInsert base seq).map Prod.fst =
        dedupKeys (base.map Prod.fst) (seq.map Prod.fst) := by
  induction seq with
  | nil => intro base; rfl
  | cons kv rest ih =>
    intro base
    rw [List.foldl_cons, ih (pyInsert base kv), pyInsert_keys]
    by_cases h : kv.1 ∈ base.map Prod.fst <;>
      simp [h, dedupKeys, List.map_cons, List.foldl_cons]

theorem dedupKeys_nodup (ks : List String) :
    ∀ base : List String, base.Nodup → (dedupKeys base ks).Nodup := by
  induction ks with
  | nil => intro base h; exact h
  | cons k rest ih =>
    intro base h
    rw [dedupKeys, List.foldl_cons]
    by_cases hk : k ∈ base
    · rw [if_pos hk]; exact ih base h
    · rw [if_neg hk]
      exact ih _ (by simp [List.nodup_append, h, hk])

theorem mem_dedupKeys_of_mem_base (ks : List String) :
    ∀ base : List String, ∀ k ∈ base, k ∈ dedupKeys base ks := by
  induction ks with
  | nil => intro base k hk; exact hk
  | cons k0 rest ih =>
    intro base k hk
    rw [dedupKeys, List.foldl_cons]
    by_cases h0 : k0 ∈ base
    · rw [if_pos h0]; exact ih base k hk
    · rw [if_neg h0]; exact ih _ k (by simp [hk])

theorem mem_dedupKeys_of_mem (ks : List String) :
    ∀ base : List String, ∀ k ∈ ks, k ∈ dedupKeys base ks := by
  induction ks with
  | nil => intro base k hk; cases hk
  | cons k0 rest ih =>
    intro base k hk
    rw [dedupKeys, List.foldl_cons]
    rcases List.mem_cons.mp hk with h | h
    · subst h
      by_cases h0 : k ∈ base
      · rw [if_pos h0]
        exact mem_dedupKeys_of_mem_base rest base k h0
      · rw [if_neg h0]
        exact mem_dedupKeys_of_mem_base rest _ k (by simp)
    · by_cases h0 : k0 ∈ base <;> simp only [if_pos, if_neg, *] <;> exact ih _ k h

theorem mem_pyInsert (l : List (String × α)) (kv p : String × α)
    (h : p ∈ pyInsert l kv) : p ∈ l ∨ p = kv := by
  unfold pyInsert at h
  split at h
  · obtain ⟨q, hq, hqe⟩ := List.mem_map.mp h
    by_cases hqk : q.1 = kv.1
    · right; rw [if_pos hqk] at hqe; exact hqe.symm
    · left; rw [if_neg hqk] at hqe; exact hqe ▸ hq
  · rcases List.mem_append.mp h with h | h
    · exact Or.inl h
    · exact Or.inr (List.mem_singleton.mp h)

theorem mem_foldl_pyInsert (seq : List (String × α)) :
    ∀ base : List (String × α), ∀ p ∈ List.foldl pyInsert base seq,
      p ∈ base ∨ p ∈ seq := by
  induction seq with
  | nil => intro base p hp; exact Or.inl hp
  | cons kv rest ih =>
    intro base p hp
    rw [List.foldl_cons] at hp
    rcases ih (pyInsert base kv) p hp with h | h
    · rcases mem_pyInsert base kv p h with h | h
      · exact Or.inl h
      · exact Or.inr (h ▸ List.mem_cons_self kv rest)
    · exact Or.inr (List.mem_cons_of_mem kv h)

theorem pyLookup_pyInsert_ne (l : List (String × α)) (kv : String × α)
    (k : String) (h : kv.1 ≠ k) :
    pyLookup (pyInsert l kv) k = pyLookup l k := by
  unfold pyInsert
  by_cases hany : (l.any fun p => p.1 = kv.1) = true
  · rw [if_pos hany]
    clear hany
    unfold pyLookup
    congr 1
    induction l with
    | nil => rfl
    | cons q rest ih =>
      rw [List.map_cons]
      by_cases hq : q.1 = kv.1
      · rw [if_pos hq,
          List.find?_cons_of_neg _ (by simp [h]),
          List.find?_cons_of_neg _ (by simp [hq ▸ h])]
        exact ih
      · by_cases hqk : q.1 = k
        · rw [if_neg hq, List.find?_cons_of_pos _ (by simp [hqk]),
            List.find?_cons_of_pos _ (by simp [hqk])]
        · rw [if_neg hq, List.find?_cons_of_neg _ (by simp [hqk]),
            List.find?_cons_of_neg _ (by simp [hqk])]
          exact ih
  · rw [if_neg hany]
    unfold pyLookup
    rw [List.find?_append]
    have h1 : List.find? (fun p => p.1 = k) [kv] = none := by
      rw [List.find?_cons_of_neg _ (by simp [h])]
      rfl
    rw [h1]
    simp

theorem pyLookup_foldl_pyInsert_ne (seq : List (String × α)) :
    ∀ base : List (String × α), ∀ k : String, (∀ p ∈ seq, p.1 ≠ k) →
      pyLookup (List.foldl pyInsert base seq) k = pyLookup base k := by
  induction seq with
  | nil => intro base k _; rfl
  | cons kv rest ih =>
    intro base k h
    rw [List.foldl_cons, ih _ k (fun p hp => h p (List.mem_cons_of_mem kv hp)),
      pyLookup_pyInsert_ne base kv k (h kv (List.mem_cons_self kv rest))]

theorem foldl_pyInsert_fresh (seq : List (String × α)) :
    ∀ base : List (String × α),
      (∀ k ∈ seq.map Prod.fst, k ∉ base.map Prod.fst) →
      (seq.map Prod.fst).Nodup →
      List.foldl pyInsert base seq = base ++ seq := by
  induction seq with
  | nil => intro base _ _; simp
  | cons kv rest ih =>
    intro base hfresh hnodup
    rw [List.foldl_cons,
      pyInsert_of_not_mem base kv (hfresh kv.1 (by simp)),
      ih (base ++ [kv]) ?_ (by simpa using hnodup.of_cons)]
    · simp
    · intro k hk
      rw [List.map_append, List.mem_append]
      rintro (h | h)
      · exact hfresh k (by simp [hk]) h
      · rw [List.map_cons] at hnodup
        simp at h
        rcases List.mem_map.mp hk with ⟨p, hp, hpk⟩
        exact (List.nodup_cons.mp hnodup).1 (h ▸ hpk ▸ List.mem_map_of_mem Prod.fst hp)

theorem pyLookup_of_mem_nodup (l : List (String × α))
    (h : (l.map Prod.fst).Nodup) (p : String × α) (hp : p ∈ l) :
    pyLookup l p.1 = some p.2 := by
  induction l with
  | nil => cases hp
  | cons q rest ih =>
    rw [List.map_cons, List.nodup_cons] at h
    rcases List.mem_cons.mp hp with he | he
    · subst he
      unfold pyLookup
      rw [List.find?_cons_of_pos _ (by simp)]
      rfl
    · have hne : q.1 ≠ p.1 := by
        intro hq
        exact h.1 (hq ▸ List.mem_map_of_mem Prod.fst he)
      unfold pyLookup
      rw [List.find?_cons_of_neg _ (by simp [hne])]
      exact ih h.2 he

theorem pyLookup_isSome_iff (l : List (String × α)) (k : String) :
    (pyLookup l k).isSome = true ↔ k ∈ l.map Prod.fst := by
  induction l with
  | nil => simp [pyLookup]
  | cons q rest ih =>
    unfold pyLookup at ih ⊢
    by_cases hq : q.1 = k
    · rw [List.find?_cons_of_pos _ (by simp [hq])]
      simp [hq]
    · rw [List.find?_cons_of_neg _ (by simp [hq])]
      rw [List.map_cons, List.mem_cons]
      rw [ih]
      constructor
      · exact Or.inr
      · rintro (h | h)
        · exact absurd h.symm hq
        · exact h

end AuraAI

namespace AuraAI

/-! ## Shape-key facts -/

theorem string_append_left_cancel {p a b : String} (h : p ++ a = p ++ b) : a = b := by
  have h2 := congrArg String.data h
  simp only [String.data_append] at h2
  exact String.ext (List.append_cancel_left h2)

theorem arrow_key_eq (r : String) :
    "shape:arrow_" ++ r = "shape:" ++ ("arrow_" ++ r) := by
  rw [← String.append_assoc]
  rw [show "shape:arrow_" = "shape:" ++ "arrow_" from by decide]

theorem arrow_key_inj {i j : Nat}
    (h : "shape:arrow_" ++ Nat.repr i = "shape:arrow_" ++ Nat.repr j) : i = j :=
  nat_repr_injective (string_append_left_cancel h)

theorem shape_key_ne_document (a : String) : "shape:" ++ a ≠ "document:document" := by
  intro h
  have h2 := congrArg String.data h
  simp only [String.data_append] at h2
  simp at h2

theorem shape_key_ne_page (a : String) : "shape:" ++ a ≠ "page:page" := by
  intro h
  have h2 := congrArg String.data h
  simp only [String.data_append] at h2
  simp at h2

/-! ## The key structure of the shape insertion sequence -/

/-- The keys contributed by the branch loop: for each branch its shape
key followed by its mandatory-arrow key. -/
def branchKeysFrom : List String → Nat → List String
  | [], _ => []
  | i :: rest, k =>
    ("shape:" ++ i) :: ("shape:arrow_" ++ Nat.repr k) :: branchKeysFrom rest (k + 1)

/-- The keys contributed by the extra-edge loop: one arrow key per
qualifying endpoint pair. -/
def extraKeysFrom (N : Nat) (cid : String) (nids : List String) :
    List (String × String) → Nat → List String
  | [], _ => []
  | st :: rest, k =>
    if st.1 ∈ nids ∧ st.2 ∈ nids ∧ st.1 ≠ cid then
      ("shape:arrow_" ++ Nat.repr (N + k)) :: extraKeysFrom N cid nids rest (k + 1)
    else
      extraKeysFrom N cid nids rest (k + 1)

theorem mem_dedupKeys_iff (ks : List String) :
    ∀ (base : List String) (k : String),
      k ∈ dedupKeys base ks ↔ k ∈ base ∨ k ∈ ks := by
  induction ks with
  | nil => intro base k; simp [dedupKeys]
  | cons k0 rest ih =>
    intro base k
    rw [dedupKeys, List.foldl_cons]
    by_cases h0 : k0 ∈ base
    · rw [if_pos h0]
      rw [show List.foldl (fun acc k => if k ∈ acc then acc else acc ++ [k]) base rest
            = dedupKeys base rest from rfl, ih]
      constructor
      · rintro (h | h)
        · exact Or.inl h
        · exact Or.inr (List.mem_cons_of_mem k0 h)
      · rintro (h | h)
        · exact Or.inl h
        · rcases List.mem_cons.mp h with he | he
          · exact Or.inl (he ▸ h0)
          · exact Or.inr he
    · rw [if_neg h0]
      rw [show List.foldl (fun acc k => if k ∈ acc then acc else acc ++ [k]) (base ++ [k0]) rest
            = dedupKeys (base ++ [k0]) rest from rfl, ih]
      simp only [List.mem_append, List.mem_singleton, List.mem_cons]
      tauto

theorem mem_branchKeysFrom {x : String} :
    ∀ (ids : List String) (k : Nat),
      x ∈ branchKeysFrom ids k ↔
        (∃ i ∈ ids, x = "shape:" ++ i) ∨
        (∃ j, k ≤ j ∧ j < k + ids.length ∧ x = "shape:arrow_" ++ Nat.repr j) := by
  intro ids
  induction ids with
  | nil => intro k; simp [branchKeysFrom]; omega
  | cons i rest ih =>
    intro k
    rw [branchKeysFrom]
    simp only [List.mem_cons, ih (k + 1), List.length_cons]
    constructor
    · rintro (h | h | ⟨i2, hi2, he⟩ | ⟨j, hj1, hj2, he⟩)
      · exact Or.inl ⟨i, by simp, h⟩
      · exact Or.inr ⟨k, le_refl k, by omega, h⟩
      · exact Or.inl ⟨i2, by simp [hi2], he⟩
      · exact Or.inr ⟨j, by omega, by omega, he⟩
    · rintro (⟨i2, hi2, he⟩ | ⟨j, hj1, hj2, he⟩)
      · rcases hi2 with h2 | h2
        · exact Or.inl (h2 ▸ he)
        · exact Or.inr (Or.inr (Or.inl ⟨i2, h2, he⟩))
      · by_cases hjk : j = k
        · exact Or.inr (Or.inl (hjk ▸ he))
        · exact Or.inr (Or.inr (Or.inr ⟨j, by omega, by omega, he⟩))

theorem mem_extraKeysFrom {x : String} {N : Nat} {cid : String} {nids : List String} :
    ∀ (eps : List (String × String)) (k : Nat),
      x ∈ extraKeysFrom N cid nids eps k →
        ∃ j, k ≤ j ∧ j < k + eps.length ∧ x = "shape:arrow_" ++ Nat.repr (N + j) := by
  intro eps
  induction eps with
  | nil => intro k h; cases h
  | cons st rest ih =>
    intro k h
    rw [extraKeysFrom] at h
    split at h
    · rcases List.mem_cons.mp h with he | he
      · exact ⟨k, le_refl k, by simp, he⟩
      · obtain ⟨j, hj1, hj2, he2⟩ := ih (k + 1) he
        exact ⟨j, by omega, by simp; omega, he2⟩
    · obtain ⟨j, hj1, hj2, he2⟩ := ih (k + 1) h
      exact ⟨j, by omega, by simp; omega, he2⟩

theorem branchKeysFrom_nodup :
    ∀ (ids : List String) (k : Nat),
      ids.Nodup → (∀ i ∈ ids, ∀ j : Nat, i ≠ "arrow_" ++ Nat.repr j) →
      (branchKeysFrom ids k).Nodup := by
  intro ids
  induction ids with
  | nil => intro k _ _; simp [branchKeysFrom]
  | cons i rest ih =>
    intro k hnd harr
    rw [branchKeysFrom, List.nodup_cons, List.nodup_cons]
    refine ⟨?_, ?_, ih (k + 1) hnd.of_cons (fun i2 h2 => harr i2 (List.mem_cons_of_mem i h2))⟩
    · rw [List.mem_cons]
      rintro (h | h)
      · exact harr i (by simp) k (by rw [arrow_key_eq] at h; exact string_append_left_cancel h)
      · rcases (mem_branchKeysFrom rest (k + 1)).mp h with ⟨i2, hi2, he⟩ | ⟨j, _, _, he⟩
        · exact (List.nodup_cons.mp hnd).1 (string_append_left_cancel he ▸ hi2)
        · exact harr i (by simp) j
            (by rw [arrow_key_eq] at he; exact string_append_left_cancel he)
    · intro h
      rcases (mem_branchKeysFrom rest (k + 1)).mp h with ⟨i2, hi2, he⟩ | ⟨j, hj1, _, he⟩
      · exact harr i2 (by simp [hi2]) k
          (by rw [arrow_key_eq] at he; exact (string_append_left_cancel he).symm)
      · have := arrow_key_inj he
        omega

theorem extraKeysFrom_nodup (N : Nat) (cid : String) (nids : List String) :
    ∀ (eps : List (String × String)) (k : Nat),
      (extraKeysFrom N cid nids eps k).Nodup := by
  intro eps
  induction eps with
  | nil => intro k; simp [extraKeysFrom]
  | cons st rest ih =>
    intro k
    rw [extraKeysFrom]
    split
    · rw [List.nodup_cons]
      refine ⟨?_, ih (k + 1)⟩
      intro h
      obtain ⟨j, hj1, _, he⟩ := mem_extraKeysFrom rest (k + 1) h
      have := arrow_key_inj he
      omega
    · exact ih (k + 1)

end AuraAI

namespace AuraAI

variable {K : Type}

theorem enum_map_snd_id (branches : List ConceptNode) :
    branches.enum.map (fun p => p.2.id) = branches.map ConceptNode.id := by
  rw [show (fun (p : Nat × ConceptNode) => p.2.id) = (ConceptNode.id ∘ Prod.snd) from rfl,
    ← List.map_map, List.enum_map_snd]

theorem nodePositions_lookup_isSome [Field K] (tri : TrigOps K) (c : ConceptNode)
    (branches : List ConceptNode) (k : String) :
    (pyLookup (nodePositions tri c branches) k).isSome = true ↔
      k ∈ c.id :: branches.map ConceptNode.id := by
  rw [pyLookup_isSome_iff, nodePositions, foldl_pyInsert_keys, mem_dedupKeys_iff]
  simp only [List.map_nil, List.not_mem_nil, false_or, List.map_cons, List.map_map]
  rw [show ((fun p => p.1) ∘ fun (p : Nat × ConceptNode) =>
      (p.2.id, branchPos tri p.1 branches.length)) = (fun p => p.2.id) from rfl,
    enum_map_snd_id]

theorem branchPart_map_fst [Field K] (tri : TrigOps K) (N : Nat) (cid : String) :
    ∀ (bs : List ConceptNode) (k : Nat),
      ((bs.enumFrom k).flatMap (fun p =>
          [("shape:" ++ p.2.id, branchShape tri p.1 N p.2),
           ("shape:arrow_" ++ Nat.repr p.1,
            mandatoryArrow K p.1 cid ("shape:" ++ p.2.id))])).map Prod.fst
        = branchKeysFrom (bs.map ConceptNode.id) k := by
  intro bs
  induction bs with
  | nil => intro k; rfl
  | cons b rest ih =>
    intro k
    rw [List.enumFrom_cons, List.flatMap_cons, List.map_append, ih (k + 1)]
    rfl

theorem extraPart_map_fst [Field K] (tri : TrigOps K) (c : ConceptNode)
    (branches : List ConceptNode) :
    ∀ (es : List ConceptEdge) (k : Nat),
      ((es.enumFrom k).filterMap (fun q =>
          match pyLookup (nodePositions tri c branches) q.2.source,
                pyLookup (nodePositions tri c branches) q.2.target with
          | some sp, some _ =>
            if q.2.source = c.id then none
            else some ("shape:arrow_" ++ Nat.repr (branches.length + q.1),
                       extraArrow branches.length q.1 q.2 sp)
          | _, _ => none)).map Prod.fst
        = extraKeysFrom branches.length c.id (c.id :: branches.map ConceptNode.id)
            (es.map (fun e => (e.source, e.target))) k := by
  intro es
  induction es with
  | nil => intro k; rfl
  | cons e rest ih =>
    intro k
    rw [List.enumFrom_cons, List.filterMap_cons, List.map_cons, extraKeysFrom]
    cases hs : pyLookup (nodePositions tri c branches) e.source with
    | none =>
      have hmem : e.source ∉ c.id :: branches.map ConceptNode.id := by
        rw [← nodePositions_lookup_isSome tri c branches e.source, hs]
        simp
      rw [if_neg (fun hcond => hmem hcond.1)]
      simpa using ih (k + 1)
    | some sp =>
      have hmemS : e.source ∈ c.id :: branches.map ConceptNode.id := by
        rw [← nodePositions_lookup_isSome tri c branches e.source, hs]
        rfl
      cases ht : pyLookup (nodePositions tri c branches) e.target with
      | none =>
        have hmem : e.target ∉ c.id :: branches.map ConceptNode.id := by
          rw [← nodePositions_lookup_isSome tri c branches e.target, ht]
          simp
        rw [if_neg (fun hcond => hmem hcond.2.1)]
        simpa using ih (k + 1)
      | some tp =>
        have hmemT : e.target ∈ c.id :: branches.map ConceptNode.id := by
          rw [← nodePositions_lookup_isSome tri c branches e.target, ht]
          rfl
        by_cases hc : e.source = c.id
        · rw [if_neg (by simp [hc])]
          simp only [hc, if_pos rfl]
          simpa using ih (k + 1)
        · rw [if_pos ⟨hmemS, hmemT, hc⟩]
          simp only [if_neg hc]
          rw [List.map_cons]
          exact congrArg _ (by simpa using ih (k + 1))

theorem shapesSeq_map_fst [Field K] (tri : TrigOps K)
    (c : ConceptNode) (branches : List ConceptNode) (edges : List ConceptEdge) :
    (shapesSeq tri ⟨c :: branches, edges⟩).map Prod.fst =
      ("shape:" ++ c.id)
        :: (branchKeysFrom (branches.map ConceptNode.id) 0
            ++ extraKeysFrom branches.length c.id
                (c.id :: branches.map ConceptNode.id)
                (edges.map (fun e => (e.source, e.target))) 0) := by
  simp only [shapesSeq]
  rw [List.map_append, List.map_cons]
  rw [show branches.enum = branches.enumFrom 0 from List.enum_eq_enumFrom,
    branchPart_map_fst tri branches.length ("shape:" ++ c.id) branches 0]
  rw [show edges.enum = edges.enumFrom 0 from List.enum_eq_enumFrom,
    extraPart_map_fst tri c branches edges 0]
  rfl

end AuraAI

namespace AuraAI

variable {K : Type}

theorem shapesSeq_keys_nodup [Field K] (tri : TrigOps K)
    (c : ConceptNode) (branches : List ConceptNode) (edges : List ConceptEdge)
    (hnd : ((c :: branches).map ConceptNode.id).Nodup)
    (harr : ∀ n ∈ c :: branches, ∀ j : Nat, n.id ≠ "arrow_" ++ Nat.repr j) :
    ((shapesSeq tri ⟨c :: branches, edges⟩).map Prod.fst).Nodup := by
  rw [shapesSeq_map_fst, List.nodup_cons]
  rw [List.map_cons, List.nodup_cons] at hnd
  constructor
  · rw [List.mem_append]
    rintro (h | h)
    · rcases (mem_branchKeysFrom _ 0).mp h with ⟨i2, hi2, he⟩ | ⟨j, _, _, he⟩
      · exact hnd.1 (string_append_left_cancel he ▸ hi2)
      · rw [arrow_key_eq] at he
        exact harr c (by simp) j (string_append_left_cancel he)
    · obtain ⟨j, _, _, he⟩ := mem_extraKeysFrom _ 0 h
      rw [arrow_key_eq] at he
      exact harr c (by simp) (branches.length + j) (string_append_left_cancel he)
  · rw [List.nodup_append]
    refine ⟨branchKeysFrom_nodup _ 0 hnd.2 ?_, extraKeysFrom_nodup _ _ _ _ 0, ?_⟩
    · intro i2 hi2 j
      obtain ⟨b, hb, hbe⟩ := List.mem_map.mp hi2
      exact hbe ▸ harr b (List.mem_cons_of_mem c hb) j
    · intro x hxB hxC
      obtain ⟨j, _, _, he⟩ := mem_extraKeysFrom _ 0 hxC
      rcases (mem_branchKeysFrom _ 0).mp hxB with ⟨i2, hi2, he2⟩ | ⟨j2, _, hj3, he2⟩
      · obtain ⟨b, hb, hbe⟩ := List.mem_map.mp hi2
        rw [he2, arrow_key_eq] at he
        exact harr b (List.mem_cons_of_mem c hb) (branches.length + j)
          (hbe ▸ string_append_left_cancel he)
      · rw [he2] at he
        have := arrow_key_inj he
        rw [List.length_map] at hj3
        omega

theorem shapesSeq_key_shape_form [Field K] (tri : TrigOps K)
    (c : ConceptNode) (branches : List ConceptNode) (edges : List ConceptEdge) :
    ∀ k ∈ (shapesSeq tri ⟨c :: branches, edges⟩).map Prod.fst,
      ∃ a, k = "shape:" ++ a := by
  rw [shapesSeq_map_fst]
  intro k hk
  rcases List.mem_cons.mp hk with h | h
  · exact ⟨c.id, h⟩
  rcases List.mem_append.mp h with h | h
  · rcases (mem_branchKeysFrom _ 0).mp h with ⟨i2, _, he⟩ | ⟨j, _, _, he⟩
    · exact ⟨i2, he⟩
    · exact ⟨"arrow_" ++ Nat.repr j, by rw [he, arrow_key_eq]⟩
  · obtain ⟨j, _, _, he⟩ := mem_extraKeysFrom _ 0 h
    exact ⟨"arrow_" ++ Nat.repr (branches.length + j), by rw [he, arrow_key_eq]⟩

/-- Under distinct node ids with no `arrow_<n>`-shaped id, every insertion
into the shapes dict is fresh, so the store is literally the two container
records followed by the insertion sequence. -/
theorem build_store_eq [Field K] (tri : TrigOps K)
    (c : ConceptNode) (branches : List ConceptNode) (edges : List ConceptEdge)
    (hnd : ((c :: branches).map ConceptNode.id).Nodup)
    (harr : ∀ n ∈ c :: branches, ∀ j : Nat, n.id ≠ "arrow_" ++ Nat.repr j) :
    (build_initial_board tri ⟨c :: branches, edges⟩).store =
      ("document:document", documentRecord K) :: ("page:page", pageRecord K)
        :: shapesSeq tri ⟨c :: branches, edges⟩ := by
  have hnodup := shapesSeq_keys_nodup tri c branches edges hnd harr
  have hform := shapesSeq_key_shape_form tri c branches edges
  unfold build_initial_board
  rw [if_neg (by simp)]
  show List.foldl pyInsert _ (shapesDict tri ⟨c :: branches, edges⟩) = _
  have hDict : shapesDict tri (⟨c :: branches, edges⟩ : ConceptGraph)
      = shapesSeq tri ⟨c :: branches, edges⟩ := by
    unfold shapesDict
    rw [foldl_pyInsert_fresh _ [] (by simp) hnodup]
    rfl
  rw [hDict, foldl_pyInsert_fresh _ _ ?_ hnodup]
  · rfl
  · intro k hk hkb
    obtain ⟨a, ha⟩ := hform k hk
    rcases List.mem_cons.mp hkb with h | h
    · exact shape_key_ne_document a (ha ▸ h)
    · exact shape_key_ne_page a (ha ▸ (List.mem_singleton.mp h))

end AuraAI

namespace AuraAI

variable {K : Type}

theorem mem_shapesDict_of_mem_seq [Field K] (tri : TrigOps K) (g : ConceptGraph)
    {p : String × StoreRecord K} (hp : p ∈ shapesDict tri g) : p ∈ shapesSeq tri g := by
  rcases mem_foldl_pyInsert _ [] p hp with h | h
  · cases h
  · exact h

theorem shapesDict_key_ne_container [Field K] (tri : TrigOps K)
    (c : ConceptNode) (bs : List ConceptNode) (es : List ConceptEdge)
    {p : String × StoreRecord K} (hp : p ∈ shapesDict tri ⟨c :: bs, es⟩) :
    p.1 ≠ "document:document" ∧ p.1 ≠ "page:page" := by
  have hm : p.1 ∈ (shapesSeq tri (⟨c :: bs, es⟩ : ConceptGraph)).map Prod.fst :=
    List.mem_map_of_mem Prod.fst (mem_shapesDict_of_mem_seq tri _ hp)
  obtain ⟨a, ha⟩ := shapesSeq_key_shape_form tri c bs es p.1 hm
  exact ⟨ha ▸ shape_key_ne_document a, ha ▸ shape_key_ne_page a⟩

theorem storeGet_document [Field K] (tri : TrigOps K) (g : ConceptGraph) :
    (build_initial_board tri g).storeGet "document:document" = some (documentRecord K) := by
  obtain ⟨ns, es⟩ := g
  cases ns with
  | nil => rfl
  | cons c bs =>
    unfold build_initial_board
    rw [if_neg (by simp)]
    show pyLookup _ _ = _
    rw [pyLookup_foldl_pyInsert_ne _ _ _
      (fun p hp => (shapesDict_key_ne_container tri c bs es hp).1)]
    rfl

theorem storeGet_page [Field K] (tri : TrigOps K) (g : ConceptGraph) :
    (build_initial_board tri g).storeGet "page:page" = some (pageRecord K) := by
  obtain ⟨ns, es⟩ := g
  cases ns with
  | nil => rfl
  | cons c bs =>
    unfold build_initial_board
    rw [if_neg (by simp)]
    show pyLookup _ _ = _
    rw [pyLookup_foldl_pyInsert_ne _ _ _
      (fun p hp => (shapesDict_key_ne_container tri c bs es hp).2)]
    rfl

theorem mem_storeKeys_of_seq [Field K] (tri : TrigOps K)
    (c : ConceptNode) (bs : List ConceptNode) (es : List ConceptEdge) (k : String)
    (hk : k ∈ (shapesSeq tri ⟨c :: bs, es⟩).map Prod.fst) :
    k ∈ (build_initial_board tri ⟨c :: bs, es⟩).storeKeys := by
  unfold build_initial_board
  rw [if_neg (by simp)]
  show k ∈ (List.foldl pyInsert _ _).map Prod.fst
  rw [foldl_pyInsert_keys, mem_dedupKeys_iff]
  right
  show k ∈ (shapesDict tri (⟨c :: bs, es⟩ : ConceptGraph)).map Prod.fst
  unfold shapesDict
  rw [foldl_pyInsert_keys]
  exact mem_dedupKeys_of_mem _ _ k hk

/-- Case analysis on the members of the insert sequence: the central
shape, a branch rectangle, a mandatory arrow, or a qualifying extra
arrow. -/
theorem mem_shapesSeq_cases [Field K] (tri : TrigOps K)
    (c : ConceptNode) (bs : List ConceptNode) (es : List ConceptEdge)
    {p : String × StoreRecord K} (hp : p ∈ shapesSeq tri ⟨c :: bs, es⟩) :
    p = ("shape:" ++ c.id, centralShape K c)
    ∨ (∃ q ∈ bs.enum,
        p = ("shape:" ++ q.2.id, branchShape tri q.1 bs.length q.2)
        ∨ p = ("shape:arrow_" ++ Nat.repr q.1,
               mandatoryArrow K q.1 ("shape:" ++ c.id) ("shape:" ++ q.2.id)))
    ∨ (∃ q ∈ es.enum, ∃ sp,
        pyLookup (nodePositions tri c bs) q.2.source = some sp
        ∧ (pyLookup (nodePositions tri c bs) q.2.target).isSome = true
        ∧ q.2.source ≠ c.id
        ∧ p = ("shape:arrow_" ++ Nat.repr (bs.length + q.1),
               extraArrow bs.length q.1 q.2 sp)) := by
  simp only [shapesSeq] at hp
  rcases List.mem_append.mp hp with h | h
  · rcases List.mem_cons.mp h with h | h
    · exact Or.inl h
    · obtain ⟨q, hq, hpq⟩ := List.mem_flatMap.mp h
      rcases List.mem_cons.mp hpq with h2 | h2
      · exact Or.inr (Or.inl ⟨q, hq, Or.inl h2⟩)
      · exact Or.inr (Or.inl ⟨q, hq, Or.inr (List.mem_singleton.mp h2)⟩)
  · obtain ⟨q, hq, hpq⟩ := List.mem_filterMap.mp h
    cases hs : pyLookup (nodePositions tri c bs) q.2.source with
    | none =>
      cases ht : pyLookup (nodePositions tri c bs) q.2.target <;>
        simp only [hs, ht] at hpq <;> cases hpq
    | some sp =>
      cases ht : pyLookup (nodePositions tri c bs) q.2.target with
      | none => simp only [hs, ht] at hpq; cases hpq
      | some tp =>
        simp only [hs, ht] at hpq
        by_cases hc : q.2.source = c.id
        · rw [if_pos hc] at hpq; cases hpq
        · rw [if_neg hc] at hpq
          exact Or.inr (Or.inr ⟨q, hq, sp, hs, by rw [ht]; rfl, hc,
            (Option.some_inj.mp hpq).symm⟩)

end AuraAI

namespace AuraAI

variable {K : Type}

theorem shape_key_mem_storeKeys [Field K] (tri : TrigOps K)
    (c : ConceptNode) (bs : List ConceptNode) (es : List ConceptEdge) (x : String)
    (hx : x ∈ c.id :: bs.map ConceptNode.id) :
    ("shape:" ++ x) ∈ (build_initial_board tri ⟨c :: bs, es⟩).storeKeys := by
  apply mem_storeKeys_of_seq
  rw [shapesSeq_map_fst]
  rcases List.mem_cons.mp hx with h | h
  · exact h ▸ List.mem_cons_self _ _
  · exact List.mem_cons_of_mem _ (List.mem_append_left _
      ((mem_branchKeysFrom _ 0).mpr (Or.inl ⟨x, h, rfl⟩)))

/-- A computable instantiation of the layout's trigonometric parameters,
used to evaluate universally quantified layout theorems at concrete
inputs. -/
def ratTrig : TrigOps ℚ := ⟨0, fun _ => 0, fun _ => 0⟩

/-- A small two-node demo graph. -/
def demoGraph : ConceptGraph :=
  ⟨[⟨"central", "AI", none⟩, ⟨"b1", "ML", none⟩], [⟨"central", "b1", none⟩]⟩

/-- C10: the populated document and the empty skeleton carry identical
`document:document` / `page:page` records and an identical schema block,
whose record versions are asset=1, camera=1, document=2, instance=22,
instance_page_state=5, page=1, shape=3, instance_presence=5, pointer=1,
with schemaVersion 1 and storeVersion 4, for every input graph. -/
theorem C10_envelope_identical (K : Type) [Field K] (tri : TrigOps K) (g : ConceptGraph) :
    (build_initial_board tri g).schema = (create_empty_snapshot K).schema
    ∧ (build_initial_board tri g).storeGet "document:document"
        = (create_empty_snapshot K).storeGet "document:document"
    ∧ (build_initial_board tri g).storeGet "page:page"
        = (create_empty_snapshot K).storeGet "page:page"
    ∧ (build_initial_board tri g).schema.schemaVersion = 1
    ∧ (build_initial_board tri g).schema.storeVersion = 4
    ∧ (build_initial_board tri g).schema.recordVersions.asset.version = 1
    ∧ (build_initial_board tri g).schema.recordVersions.camera = 1
    ∧ (build_initial_board tri g).schema.recordVersions.document = 2
    ∧ (build_initial_board tri g).schema.recordVersions.instanceVer = 22
    ∧ (build_initial_board tri g).schema.recordVersions.instancePageState = 5
    ∧ (build_initial_board tri g).schema.recordVersions.page = 1
    ∧ (build_initial_board tri g).schema.recordVersions.shape.version = 3
    ∧ (build_initial_board tri g).schema.recordVersions.instancePresence = 5
    ∧ (build_initial_board tri g).schema.recordVersions.pointer = 1 := by
  have hschema : (build_initial_board tri g).schema = snapshotSchema := by
    unfold build_initial_board
    split <;> rfl
  refine ⟨by rw [hschema]; rfl, ?_, ?_, ?_⟩
  · rw [storeGet_document]; rfl
  · rw [storeGet_page]; rfl
  · rw [hschema]
    refine ⟨rfl, rfl, rfl, rfl, rfl, rfl, rfl, rfl, rfl, rfl, rfl⟩

/-- C6: every produced document contains the `document:document` and
`page:page` records, its store keys are pairwise distinct, and every
arrow's two `boundShapeId`s are keys of the same store. -/
theorem C6_document_invariants (K : Type) [Field K] (tri : TrigOps K) (g : ConceptGraph) :
    (build_initial_board tri g).storeGet "document:document" = some (documentRecord K)
    ∧ (build_initial_board tri g).storeGet "page:page" = some (pageRecord K)
    ∧ (build_initial_board tri g).storeKeys.Nodup
    ∧ ∀ p ∈ (build_initial_board tri g).store, ∀ b ∈ p.2.boundIds,
        b ∈ (build_initial_board tri g).storeKeys := by
  refine ⟨storeGet_document tri g, storeGet_page tri g, ?_, ?_⟩
  · obtain ⟨ns, es⟩ := g
    cases ns with
    | nil =>
      show (["document:document", "page:page"] : List String).Nodup
      decide
    | cons c bs =>
      unfold build_initial_board
      rw [if_neg (by simp)]
      show ((List.foldl pyInsert _ _).map Prod.fst).Nodup
      rw [foldl_pyInsert_keys]
      exact dedupKeys_nodup _ _
        (by show (["document:document", "page:page"] : List String).Nodup; decide)
  · obtain ⟨ns, es⟩ := g
    cases ns with
    | nil =>
      intro p hp b hb
      rcases List.mem_cons.mp hp with h | h
      · rw [h] at hb; cases hb
      · rw [List.mem_singleton.mp h] at hb; cases hb
    | cons c bs =>
      intro p hp b hb
      have hp2 : p ∈ shapesDict tri (⟨c :: bs, es⟩ : ConceptGraph)
          ∨ p ∈ [("document:document", documentRecord K), ("page:page", pageRecord K)] := by
        conv at hp => rw [build_initial_board, if_neg (by simp)]
        rcases mem_foldl_pyInsert _ _ p hp with h | h
        · exact Or.inr h
        · exact Or.inl h
      rcases hp2 with h | h
      · rcases mem_shapesSeq_cases tri c bs es (mem_shapesDict_of_mem_seq tri _ h) with
          h2 | ⟨q, hq, h2 | h2⟩ | ⟨q, hq, sp, hs, ht, hc, h2⟩
        · rw [h2] at hb; cases hb
        · rw [h2] at hb; cases hb
        · rw [h2] at hb
          rcases List.mem_cons.mp hb with h3 | h3
          · exact h3 ▸ shape_key_mem_storeKeys tri c bs es c.id (by simp)
          · rw [List.mem_singleton.mp h3]
            apply shape_key_mem_storeKeys tri c bs es q.2.id
            exact List.mem_cons_of_mem _
              (List.mem_map_of_mem ConceptNode.id
                (List.getElem?_mem (List.mem_enum_iff_getElem?.mp hq)))
        · rw [h2] at hb
          rcases List.mem_cons.mp hb with h3 | h3
          · rw [h3]
            apply shape_key_mem_storeKeys tri c bs es q.2.source
            rw [← nodePositions_lookup_isSome tri c bs, hs]
            rfl
          · rw [List.mem_singleton.mp h3]
            apply shape_key_mem_storeKeys tri c bs es q.2.target
            rw [← nodePositions_lookup_isSome tri c bs]
            exact ht
      · rcases List.mem_cons.mp h with h3 | h3
        · rw [h3] at hb; cases hb
        · rw [List.mem_singleton.mp h3] at hb; cases hb

/-- Witness for C6 at a concrete graph: the mandatory arrow's end binding
resolves to a store key. -/
theorem C6_document_invariants_witness :
    "shape:b1" ∈ (build_initial_board ratTrig demoGraph).storeKeys := by
  have hstore : (build_initial_board ratTrig demoGraph).store =
      [("document:document", documentRecord ℚ), ("page:page", pageRecord ℚ),
       ("shape:central", centralShape ℚ ⟨"central", "AI", none⟩),
       ("shape:b1", branchShape ratTrig 0 1 ⟨"b1", "ML", none⟩),
       ("shape:arrow_0", mandatoryArrow ℚ 0 "shape:central" "shape:b1")] := rfl
  have hm : ("shape:arrow_0", mandatoryArrow ℚ 0 "shape:central" "shape:b1")
      ∈ (build_initial_board ratTrig demoGraph).store := by
    rw [hstore]
    exact List.mem_cons_of_mem _ (List.mem_cons_of_mem _ (List.mem_cons_of_mem _
      (List.mem_cons_of_mem _ (List.mem_cons_self _ _))))
  exact (C6_document_invariants ℚ ratTrig demoGraph).2.2.2 _ hm "shape:b1" (by decide)

end AuraAI

namespace AuraAI

variable {K : Type}

theorem build_storeKeys_eq [Field K] (tri : TrigOps K)
    (c : ConceptNode) (bs : List ConceptNode) (es : List ConceptEdge) :
    (build_initial_board tri ⟨c :: bs, es⟩).storeKeys
      = dedupKeys ["document:document", "page:page"]
          (dedupKeys [] ((shapesSeq tri ⟨c :: bs, es⟩).map Prod.fst)) := by
  unfold build_initial_board
  rw [if_neg (by simp)]
  show (List.foldl pyInsert _ _).map Prod.fst = _
  rw [foldl_pyInsert_keys,
    show (shapesDict tri (⟨c :: bs, es⟩ : ConceptGraph)).map Prod.fst
      = dedupKeys [] ((shapesSeq tri ⟨c :: bs, es⟩).map Prod.fst) from by
        unfold shapesDict; rw [foldl_pyInsert_keys]; rfl]
  rfl

/-- C5: the layout builder is a pure function — rebuilding from the same
graph yields the identical document — and the set of generated shape and
arrow identifiers depends only on the node ids and the edge endpoint ids
of the input graph (in order), not on labels, descriptions or any other
state. -/
theorem C5_layout_deterministic (K : Type) [Field K] (tri : TrigOps K)
    (g g' : ConceptGraph)
    (hids : g.nodes.map ConceptNode.id = g'.nodes.map ConceptNode.id)
    (heps : g.edges.map (fun e => (e.source, e.target))
        = g'.edges.map (fun e => (e.source, e.target))) :
    build_initial_board tri g = build_initial_board tri g
    ∧ (build_initial_board tri g).storeKeys = (build_initial_board tri g').storeKeys := by
  refine ⟨rfl, ?_⟩
  obtain ⟨ns, es⟩ := g
  obtain ⟨ns', es'⟩ := g'
  cases ns with
  | nil =>
    cases ns' with
    | nil => rfl
    | cons c' bs' => simp at hids
  | cons c bs =>
    cases ns' with
    | nil => simp at hids
    | cons c' bs' =>
      simp only [List.map_cons, List.cons.injEq] at hids
      have hlen : bs.length = bs'.length := by
        have := congrArg List.length hids.2
        simpa using this
      rw [build_storeKeys_eq, build_storeKeys_eq, shapesSeq_map_fst, shapesSeq_map_fst,
        hids.1, hids.2, hlen, heps]

/-- A variant of `demoGraph` with different labels and descriptions but
the same node ids and edge endpoints. -/
def demoGraphRelabeled : ConceptGraph :=
  ⟨[⟨"central", "Other Topic", some "d"⟩, ⟨"b1", "Different", some "x"⟩],
   [⟨"central", "b1", some "lbl"⟩]⟩

theorem C5_layout_deterministic_witness :
    (build_initial_board ratTrig demoGraph).storeKeys
      = (build_initial_board ratTrig demoGraphRelabeled).storeKeys :=
  (C5_layout_deterministic ℚ ratTrig demoGraph demoGraphRelabeled
    (by decide) (by decide)).2

end AuraAI

namespace AuraAI

variable {K : Type}

/-- A string whose first six characters are not `arrow_` is not of the
reserved arrow-id form, for any index. -/
theorem ne_arrow_format {s : String}
    (hh : s.data.take 6 ≠ ['a', 'r', 'r', 'o', 'w', '_']) :
    ∀ j : Nat, s ≠ "arrow_" ++ Nat.repr j := by
  intro j h
  apply hh
  rw [h, show ("arrow_" ++ Nat.repr j).data = "arrow_".data ++ (Nat.repr j).data
    from String.data_append _ _]
  rw [show (6 : Nat) = "arrow_".data.length from by decide, List.take_left]

theorem shapesDict_eq_seq [Field K] (tri : TrigOps K)
    (c : ConceptNode) (bs : List ConceptNode) (es : List ConceptEdge)
    (hnd : ((c :: bs).map ConceptNode.id).Nodup)
    (harr : ∀ n ∈ c :: bs, ∀ j : Nat, n.id ≠ "arrow_" ++ Nat.repr j) :
    shapesDict tri ⟨c :: bs, es⟩ = shapesSeq tri ⟨c :: bs, es⟩ := by
  unfold shapesDict
  rw [foldl_pyInsert_fresh _ [] (by simp) (shapesSeq_keys_nodup tri c bs es hnd harr)]
  rfl

theorem length_flatMap_pair {α β : Type} (l : List α) (f g : α → β) :
    (l.flatMap (fun x => [f x, g x])).length = 2 * l.length := by
  induction l with
  | nil => rfl
  | cons a rest ih =>
    rw [List.flatMap_cons, List.length_append, ih]
    simp
    omega

theorem extraPart_length [Field K] (tri : TrigOps K) (c : ConceptNode)
    (branches : List ConceptNode) :
    ∀ (es : List ConceptEdge) (k : Nat),
      ((es.enumFrom k).filterMap (fun q =>
          match pyLookup (nodePositions tri c branches) q.2.source,
                pyLookup (nodePositions tri c branches) q.2.target with
          | some sp, some _ =>
            if q.2.source = c.id then none
            else some ("shape:arrow_" ++ Nat.repr (branches.length + q.1),
                       extraArrow branches.length q.1 q.2 sp)
          | _, _ => none)).length
        = (es.filter (fun e =>
            (pyLookup (nodePositions tri c branches) e.source).isSome
            && (pyLookup (nodePositions tri c branches) e.target).isSome
            && e.source != c.id)).length := by
  intro es
  induction es with
  | nil => intro k; rfl
  | cons e rest ih =>
    intro k
    rw [List.enumFrom_cons, List.filterMap_cons]
    cases hs : pyLookup (nodePositions tri c branches) e.source with
    | none =>
      rw [List.filter_cons_of_neg (by simp [hs])]
      cases ht : pyLookup (nodePositions tri c branches) e.target <;>
        simp only [hs, ht] <;> exact ih (k + 1)
    | some sp =>
      cases ht : pyLookup (nodePositions tri c branches) e.target with
      | none =>
        rw [List.filter_cons_of_neg (by simp [hs, ht])]
        simp only [hs, ht]
        exact ih (k + 1)
      | some tp =>
        by_cases hc : e.source = c.id
        · rw [List.filter_cons_of_neg (by simp [hs, ht, hc])]
          simp only [hs, ht, if_pos hc]
          exact ih (k + 1)
        · rw [List.filter_cons_of_pos (by simp [hs, ht, hc])]
          simp only [hs, ht, if_neg hc, List.length_cons, List.length_cons]
          rw [ih (k + 1)]

/-- C4 (amended): provided node ids are pairwise distinct and no node id
has the reserved decimal form `arrow_<n>`, the shapes dict of a nonempty
graph has exactly `1 + N + N + E` entries (central shape, `N` branch
rectangles, `N` mandatory arrows, `E` qualifying extra edges); a graph
with no nodes yields the empty two-record snapshot, and a single-node
graph yields exactly the central ellipse and no arrows. -/
theorem C4_shape_counts (K : Type) [Field K] (tri : TrigOps K) (g : ConceptGraph)
    (hnd : (g.nodes.map ConceptNode.id).Nodup)
    (harr : ∀ n ∈ g.nodes, ∀ j : Nat, n.id ≠ "arrow_" ++ Nat.repr j) :
    (∀ c branches, g.nodes = c :: branches →
        (shapesDict tri g).length
          = 1 + branches.length + branches.length
            + (g.edges.filter (fun e =>
                (pyLookup (nodePositions tri c branches) e.source).isSome
                && (pyLookup (nodePositions tri c branches) e.target).isSome
                && e.source != c.id)).length)
    ∧ (g.nodes = [] → build_initial_board tri g = create_empty_snapshot K)
    ∧ (∀ c, g.nodes = [c] → shapesDict tri g = [("shape:" ++ c.id, centralShape K c)]) := by
  obtain ⟨ns, es⟩ := g
  refine ⟨?_, ?_, ?_⟩
  · intro c branches hg
    simp only at hg
    subst hg
    rw [shapesDict_eq_seq tri c branches es hnd harr]
    simp only [shapesSeq]
    rw [List.length_append, List.length_cons, length_flatMap_pair,
      show branches.enum = branches.enumFrom 0 from List.enum_eq_enumFrom,
      show es.enum = es.enumFrom 0 from List.enum_eq_enumFrom,
      extraPart_length tri c branches es 0]
    simp only [List.enumFrom_length]
    omega
  · intro hg
    simp only at hg
    subst hg
    rfl
  · intro c hg
    simp only at hg
    subst hg
    rw [shapesDict_eq_seq tri c [] es hnd harr]
    simp only [shapesSeq]
    rw [List.filterMap_eq_nil_iff.mpr ?hnone]
    case hnone =>
      intro q _
      cases hs : pyLookup (nodePositions tri c []) q.2.source with
      | none =>
        cases ht : pyLookup (nodePositions tri c []) q.2.target <;> simp [hs, ht]
      | some sp =>
        have hmem : q.2.source ∈ c.id :: ([] : List ConceptNode).map ConceptNode.id := by
          rw [← nodePositions_lookup_isSome tri c [], hs]
          rfl
        have hq : q.2.source = c.id := by simpa using hmem
        cases ht : pyLookup (nodePositions tri c []) q.2.target <;>
          simp [hs, ht, hq]
    rfl

/-- Witness for C4 at a concrete two-node graph. -/
theorem C4_shape_counts_witness :
    (shapesDict ratTrig demoGraph).length = 1 + 1 + 1 + 0 :=
  (C4_shape_counts ℚ ratTrig demoGraph (by decide)
    (by
      intro n hn j
      fin_cases hn <;> exact ne_arrow_format (by decide) j)).1
    ⟨"central", "AI", none⟩ [⟨"b1", "ML", none⟩] rfl

end AuraAI

namespace AuraAI

variable {K : Type}

theorem build_store_lookup [Field K] (tri : TrigOps K)
    (c : ConceptNode) (bs : List ConceptNode) (es : List ConceptEdge)
    (hnd : ((c :: bs).map ConceptNode.id).Nodup)
    (harr : ∀ n ∈ c :: bs, ∀ j : Nat, n.id ≠ "arrow_" ++ Nat.repr j)
    (p : String × StoreRecord K) (hp : p ∈ shapesSeq tri ⟨c :: bs, es⟩) :
    (build_initial_board tri ⟨c :: bs, es⟩).storeGet p.1 = some p.2 := by
  show pyLookup _ _ = _
  rw [build_store_eq tri c bs es hnd harr]
  apply pyLookup_of_mem_nodup
  · rw [List.map_cons, List.map_cons, List.nodup_cons, List.nodup_cons]
    refine ⟨?_, ?_, shapesSeq_keys_nodup tri c bs es hnd harr⟩
    · rw [List.mem_cons]
      rintro (h | h)
      · exact absurd h (show ¬("document:document" : String) = "page:page" by decide)
      · obtain ⟨a, ha⟩ := shapesSeq_key_shape_form tri c bs es _ h
        exact shape_key_ne_document a ha.symm
    · intro h
      obtain ⟨a, ha⟩ := shapesSeq_key_shape_form tri c bs es _ h
      exact shape_key_ne_page a ha.symm
  · exact List.mem_cons_of_mem _ (List.mem_cons_of_mem _ hp)

/-- A well-formed graph whose branch id `arrow_0` collides with the
mandatory arrow identifier of the same name. -/
def arrowIdGraph : ConceptGraph :=
  ⟨[⟨"c", "L", none⟩, ⟨"arrow_0", "A", none⟩], []⟩

/-- Counterexample to C3 as stated: for the graph with nodes `c` and
`arrow_0` (distinct ids), the record stored under the branch key
`shape:arrow_0` is the mandatory arrow, not the 180×70 branch rectangle
the claim asserts. -/
theorem C3_counterexample :
    "shape:" ++ ("arrow_0" : String) = "shape:arrow_0"
    ∧ ((buildLayoutR arrowIdGraph).storeGet "shape:arrow_0").map StoreRecord.isRectangle
        = some false
    ∧ ((buildLayoutR arrowIdGraph).storeGet "shape:arrow_0").map StoreRecord.isArrow
        = some true :=
  ⟨rfl, rfl, rfl⟩

/-- C3 (amended): for a graph with `N ≥ 1` branches, pairwise-distinct
node ids, and no node id of the reserved `arrow_<n>` form, the `i`-th
branch is stored as a 180×70 rectangle whose top-left corner is the
circle point `(600 + 300·cos(2πi/N − π/2), 400 + 300·sin(2πi/N − π/2))`
offset by `(−90, −35)`, with fill color `colors[i mod 6]`, while the
first node is stored as a 200×100 ellipse centered at `(600, 400)`
independent of `N`. -/
theorem C3_radial_branch_geometry (g : ConceptGraph) (c : ConceptNode)
    (branches : List ConceptNode)
    (hg : g.nodes = c :: branches)
    (hN : 1 ≤ branches.length)
    (hnd : (g.nodes.map ConceptNode.id).Nodup)
    (harr : ∀ n ∈ g.nodes, ∀ j : Nat, n.id ≠ "arrow_" ++ Nat.repr j) :
    (∀ i, ∀ hi : i < branches.length,
      ∃ r, (buildLayoutR g).storeGet ("shape:" ++ branches[i].id) = some r
        ∧ r.isRectangle = true
        ∧ r.posX = some (600 + 300 * Real.cos
            (2 * Real.pi * i / branches.length - Real.pi / 2) - 90)
        ∧ r.posY = some (400 + 300 * Real.sin
            (2 * Real.pi * i / branches.length - Real.pi / 2) - 35)
        ∧ r.propW = some 180 ∧ r.propH = some 70
        ∧ r.colorName = some (colors.getD (i % 6) ""))
    ∧ (∃ rc, (buildLayoutR g).storeGet ("shape:" ++ c.id) = some rc
        ∧ rc.isEllipse = true
        ∧ rc.posX = some (600 - 100) ∧ rc.posY = some (400 - 50)
        ∧ rc.propW = some 200 ∧ rc.propH = some 100) := by
  obtain ⟨ns, es⟩ := g
  simp only at hg
  subst hg
  constructor
  · intro i hi
    have henum : (i, branches[i]) ∈ branches.enum :=
      List.mem_enum_iff_getElem?.mpr (by simp [List.getElem?_eq_getElem hi])
    have hp : ("shape:" ++ branches[i].id,
        branchShape realTrig i branches.length branches[i])
        ∈ shapesSeq realTrig ⟨c :: branches, es⟩ := by
      simp only [shapesSeq]
      exact List.mem_append_left _ (List.mem_cons_of_mem _
        (List.mem_flatMap.mpr ⟨(i, branches[i]), henum, List.mem_cons_self _ _⟩))
    refine ⟨branchShape realTrig i branches.length branches[i],
      build_store_lookup realTrig c branches es hnd harr _ hp, rfl, ?_, ?_, rfl, rfl, rfl⟩
    · simp only [branchShape, StoreRecord.posX, branchPos, branchAngle,
        Nat.max_eq_left hN, realTrig]
    · simp only [branchShape, StoreRecord.posY, branchPos, branchAngle,
        Nat.max_eq_left hN, realTrig]
  · have hp : ("shape:" ++ c.id, centralShape ℝ c)
        ∈ shapesSeq realTrig ⟨c :: branches, es⟩ := by
      simp only [shapesSeq]
      exact List.mem_append_left _ (List.mem_cons_self _ _)
    exact ⟨centralShape ℝ c,
      build_store_lookup realTrig c branches es hnd harr _ hp, rfl, rfl, rfl, rfl, rfl⟩

theorem C3_radial_branch_geometry_witness :
    ∃ r, (buildLayoutR demoGraph).storeGet "shape:b1" = some r
      ∧ r.isRectangle = true ∧ r.propW = some 180 ∧ r.propH = some 70
      ∧ r.colorName = some "light-blue" := by
  obtain ⟨r, h1, h2, _, _, h5, h6, h7⟩ :=
    (C3_radial_branch_geometry demoGraph ⟨"central", "AI", none⟩ [⟨"b1", "ML", none⟩]
      rfl (by decide) (by decide)
      (by intro n hn j; fin_cases hn <;> exact ne_arrow_format (by decide) j)).1
      0 (by decide)
  exact ⟨r, h1, h2, h5, h6, h7⟩

/-- Counterexample to C4 as stated: `arrowIdGraph` has one branch and no
qualifying extra edges, so the claim predicts `1 + 1 + 1 + 0 = 3` shape
entries, but the shapes dict holds only 2 (the branch rectangle was
overwritten by the identically keyed mandatory arrow). -/
theorem C4_counterexample :
    arrowIdGraph.nodes.length = 2 ∧ arrowIdGraph.edges.length = 0
    ∧ (shapesDict realTrig arrowIdGraph).length = 2
    ∧ (2 : Nat) ≠ 1 + 1 + 1 + 0 :=
  ⟨rfl, rfl, rfl, by decide⟩

end AuraAI

namespace AuraAI

/-- The concrete scenario graph of the specification: central "AI" with
branches "ML" and "NLP" and the two mandatory edges. -/
def c7graph : ConceptGraph :=
  ⟨[⟨"central", "AI", none⟩, ⟨"b1", "ML", none⟩, ⟨"b2", "NLP", none⟩],
   [⟨"central", "b1", none⟩, ⟨"central", "b2", none⟩]⟩

theorem c7_angle0 : branchAngle realTrig 0 2 = -(Real.pi / 2) := by
  show (2 * Real.pi * ((0 : Nat) : ℝ)) / (((max 2 1 : Nat)) : ℝ) - Real.pi / 2
    = -(Real.pi / 2)
  norm_num

theorem c7_angle1 : branchAngle realTrig 1 2 = Real.pi / 2 := by
  show (2 * Real.pi * ((1 : Nat) : ℝ)) / (((max 2 1 : Nat)) : ℝ) - Real.pi / 2
    = Real.pi / 2
  norm_num
  ring

/-- Counterexample to C7 as stated: in the two-branch scenario no
rectangle is placed at the +30° circle point — the two rectangles sit at
`y = 65` (angle −90°) and `y = 665` (angle +90°), while the +30° point
demanded by the claim would sit at `y = 515`. -/
theorem C7_counterexample :
    (∀ p ∈ (buildLayoutR c7graph).store, p.2.isRectangle = true →
        p.2.posY = some 65 ∨ p.2.posY = some 665)
    ∧ (400 + 300 * Real.sin (Real.pi / 6) - 35 : ℝ) = 515
    ∧ (65 : ℝ) ≠ 515 ∧ (665 : ℝ) ≠ 515 := by
  refine ⟨?_, ?_, by norm_num, by norm_num⟩
  · intro p hp
    have hstore : (buildLayoutR c7graph).store =
        [("document:document", documentRecord ℝ), ("page:page", pageRecord ℝ),
         ("shape:central", centralShape ℝ ⟨"central", "AI", none⟩),
         ("shape:b1", branchShape realTrig 0 2 ⟨"b1", "ML", none⟩),
         ("shape:arrow_0", mandatoryArrow ℝ 0 "shape:central" "shape:b1"),
         ("shape:b2", branchShape realTrig 1 2 ⟨"b2", "NLP", none⟩),
         ("shape:arrow_1", mandatoryArrow ℝ 1 "shape:central" "shape:b2")] := rfl
    rw [hstore] at hp
    fin_cases hp
    · intro h; cases h
    · intro h; cases h
    · intro h; cases h
    · intro _
      left
      show some ((branchPos realTrig 0 2).2 - 35) = some 65
      rw [show (branchPos realTrig 0 2).2 = 400 + 300 * Real.sin (branchAngle realTrig 0 2)
        from rfl, c7_angle0, Real.sin_neg, Real.sin_pi_div_two]
      norm_num
    · intro h; cases h
    · intro _
      right
      show some ((branchPos realTrig 1 2).2 - 35) = some 665
      rw [show (branchPos realTrig 1 2).2 = 400 + 300 * Real.sin (branchAngle realTrig 1 2)
        from rfl, c7_angle1, Real.sin_pi_div_two]
      norm_num
    · intro h; cases h
  · rw [Real.sin_pi_div_six]
    norm_num

/-- C7 (amended): in the concrete scenario the output has one 200×100
ellipse at the canvas origin, two 180×70 rectangles on the radius-300
circle at angles −90° and +90° (for i = 0, 1 of N = 2), exactly two
straight solid (`draw`, bend 0) arrows bound from the central shape to
the branch shapes, and no dashed arrows. -/
theorem C7_concrete_scenario :
    (∃ rc, (buildLayoutR c7graph).storeGet "shape:central" = some rc
      ∧ rc.isEllipse = true ∧ rc.posX = some (600 - 100) ∧ rc.posY = some (400 - 50)
      ∧ rc.propW = some 200 ∧ rc.propH = some 100)
    ∧ (∃ r1, (buildLayoutR c7graph).storeGet "shape:b1" = some r1
      ∧ r1.isRectangle = true
      ∧ r1.posX = some (600 + 300 * Real.cos (-(Real.pi / 2)) - 90)
      ∧ r1.posY = some (400 + 300 * Real.sin (-(Real.pi / 2)) - 35)
      ∧ r1.propW = some 180 ∧ r1.propH = some 70)
    ∧ (∃ r2, (buildLayoutR c7graph).storeGet "shape:b2" = some r2
      ∧ r2.isRectangle = true
      ∧ r2.posX = some (600 + 300 * Real.cos (Real.pi / 2) - 90)
      ∧ r2.posY = some (400 + 300 * Real.sin (Real.pi / 2) - 35)
      ∧ r2.propW = some 180 ∧ r2.propH = some 70)
    ∧ ((buildLayoutR c7graph).store.filter (fun p => p.2.isArrow)).map Prod.fst
        = ["shape:arrow_0", "shape:arrow_1"]
    ∧ ((buildLayoutR c7graph).storeGet "shape:arrow_0").map StoreRecord.boundIds
        = some ["shape:central", "shape:b1"]
    ∧ ((buildLayoutR c7graph).storeGet "shape:arrow_1").map StoreRecord.boundIds
        = some ["shape:central", "shape:b2"]
    ∧ ((buildLayoutR c7graph).storeGet "shape:arrow_0").map StoreRecord.arrowDash
        = some (some "draw")
    ∧ ((buildLayoutR c7graph).storeGet "shape:arrow_1").map StoreRecord.arrowDash
        = some (some "draw")
    ∧ ((buildLayoutR c7graph).storeGet "shape:arrow_0").map StoreRecord.arrowBend
        = some (some 0)
    ∧ ((buildLayoutR c7graph).storeGet "shape:arrow_1").map StoreRecord.arrowBend
        = some (some 0)
    ∧ (∀ p ∈ (buildLayoutR c7graph).store, p.2.arrowDash ≠ some "dashed") := by
  refine ⟨⟨centralShape ℝ ⟨"central", "AI", none⟩, rfl, rfl, rfl, rfl, rfl, rfl⟩,
    ⟨branchShape realTrig 0 2 ⟨"b1", "ML", none⟩, rfl, rfl, ?_, ?_, rfl, rfl⟩,
    ⟨branchShape realTrig 1 2 ⟨"b2", "NLP", none⟩, rfl, rfl, ?_, ?_, rfl, rfl⟩,
    rfl, rfl, rfl, rfl, rfl, rfl, rfl, ?_⟩
  · show some ((branchPos realTrig 0 2).1 - 90) = _
    rw [show (branchPos realTrig 0 2).1 = 600 + 300 * Real.cos (branchAngle realTrig 0 2)
      from rfl, c7_angle0]
  · show some ((branchPos realTrig 0 2).2 - 35) = _
    rw [show (branchPos realTrig 0 2).2 = 400 + 300 * Real.sin (branchAngle realTrig 0 2)
      from rfl, c7_angle0]
  · show some ((branchPos realTrig 1 2).1 - 90) = _
    rw [show (branchPos realTrig 1 2).1 = 600 + 300 * Real.cos (branchAngle realTrig 1 2)
      from rfl, c7_angle1]
  · show some ((branchPos realTrig 1 2).2 - 35) = _
    rw [show (branchPos realTrig 1 2).2 = 400 + 300 * Real.sin (branchAngle realTrig 1 2)
      from rfl, c7_angle1]
  · intro p hp
    have hstore : (buildLayoutR c7graph).store =
        [("document:document", documentRecord ℝ), ("page:page", pageRecord ℝ),
         ("shape:central", centralShape ℝ ⟨"central", "AI", none⟩),
         ("shape:b1", branchShape realTrig 0 2 ⟨"b1", "ML", none⟩),
         ("shape:arrow_0", mandatoryArrow ℝ 0 "shape:central" "shape:b1"),
         ("shape:b2", branchShape realTrig 1 2 ⟨"b2", "NLP", none⟩),
         ("shape:arrow_1", mandatoryArrow ℝ 1 "shape:central" "shape:b2")] := rfl
    rw [hstore] at hp
    fin_cases hp <;> simp [StoreRecord.arrowDash, documentRecord, pageRecord,
      centralShape, branchShape, mandatoryArrow]

end AuraAI

namespace AuraAI

theorem C7_concrete_scenario_witness :
    (documentRecord ℝ).arrowDash ≠ some "dashed" :=
  C7_concrete_scenario.2.2.2.2.2.2.2.2.2.2
    ("document:document", documentRecord ℝ) (List.mem_cons_self _ _)

end AuraAI

namespace AuraAI

/-! ## Properties of the synthetic-node repair loop -/

/-- The `id` values of the nodes of a raw graph. -/
def idVals (nodes : List Json) : List Json :=
  nodes.filterMap (fun n =>
    match n with
    | .obj fs => objGet fs "id"
    | _ => none)

/-- `v` is the `source` or `target` value of the edge object `e`. -/
def isEndpointValue (e v : Json) : Prop :=
  ∃ fs, e = Json.obj fs ∧ (objGet fs "source" = some v ∨ objGet fs "target" = some v)

theorem idVals_append (xs ys : List Json) :
    idVals (xs ++ ys) = idVals xs ++ idVals ys :=
  List.filterMap_append _ _ _

theorem mkSynthNode_mem_idVals {s : String} {l : List Json}
    (h : mkSynthNode s ∈ l) : Json.str s ∈ idVals l := by
  apply List.mem_filterMap.mpr
  exact ⟨mkSynthNode s, h, rfl⟩

theorem mapM_getIdVal_eq :
    ∀ (ns ids0 : List Json), ns.mapM getIdVal = Except.ok ids0 → ids0 = idVals ns := by
  intro ns
  induction ns with
  | nil =>
    intro ids0 h
    simp only [List.mapM_nil] at h
    cases h
    rfl
  | cons n rest ih =>
    intro ids0 h
    rw [List.mapM_cons] at h
    cases hn : getIdVal n with
    | error e => rw [hn] at h; cases h
    | ok a =>
      rw [hn] at h
      cases hr : rest.mapM getIdVal with
      | error e => rw [hr] at h; cases h
      | ok as =>
        rw [hr] at h
        cases h
        cases n with
        | obj fs =>
          simp only [getIdVal] at hn
          cases hid : objGet fs "id" with
          | none => simp [hid] at hn
          | some vv =>
            simp only [hid] at hn
            by_cases hh : vv.hashable = true
            · rw [if_pos hh] at hn
              cases hn
              show _ = idVals (Json.obj fs :: rest)
              unfold idVals
              rw [List.filterMap_cons]
              simp only [hid]
              rw [ih as hr]
              rfl
            · rw [if_neg hh] at hn; cases hn
        | null => simp [getIdVal] at hn
        | bool b => simp [getIdVal] at hn
        | num r => simp [getIdVal] at hn
        | str s => simp [getIdVal] at hn
        | arr xs => simp [getIdVal] at hn

/-- Inversion for the per-endpoint step: either nothing changed (and a
truthy value present was already a known id), or a fresh truthy string
endpoint added one synthetic node and its id. -/
theorem endpointStep_ok_cases (acc res : List Json × List Json) (vOpt : Option Json)
    (h : endpointStep acc vOpt = .ok res) :
    (res = acc ∧ ∀ v, vOpt = some v → v.truthy = true → v ∈ acc.1)
    ∨ (∃ s : String, vOpt = some (.str s) ∧ (Json.str s).truthy = true
        ∧ Json.str s ∉ acc.1
        ∧ res = (Json.str s :: acc.1, acc.2 ++ [mkSynthNode s])) := by
  cases vOpt with
  | none =>
    left
    simp only [endpointStep] at h
    cases h
    exact ⟨rfl, by intro v hv; cases hv⟩
  | some v =>
    simp only [endpointStep] at h
    by_cases ht : v.truthy = true
    · rw [if_neg (by simp [ht])] at h
      by_cases hh : v.hashable = true
      · rw [if_neg (by simp [hh])] at h
        by_cases hm : v ∈ acc.1
        · rw [if_pos hm] at h
          cases h
          exact Or.inl ⟨rfl, by intro w hw _; cases hw; exact hm⟩
        · rw [if_neg hm] at h
          cases v with
          | str s => cases h; exact Or.inr ⟨s, rfl, ht, hm, rfl⟩
          | null => cases h
          | bool b => cases h
          | num r => cases h
          | arr xs => cases h
          | obj fs => cases h
      · rw [if_pos hh] at h
        cases h
    · rw [if_pos (by simpa using ht)] at h
      cases h
      exact Or.inl ⟨rfl, by intro w hw hwt; cases hw; exact absurd hwt ht⟩

end AuraAI

namespace AuraAI

theorem truthy_str (s : String) : (Json.str s).truthy = true ↔ s ≠ "" := by
  simp [Json.truthy]

theorem mkSynthNode_inj {a b : String} (h : mkSynthNode a = mkSynthNode b) : a = b := by
  have h2 : (Json.str a = Json.str b) := by
    have := congrArg (fun j => match j with
      | Json.obj (("id", v) :: _) => v
      | _ => Json.null) h
    simpa [mkSynthNode] using this
  cases h2
  rfl

/-- One loop iteration over an edge: the appended synthetic nodes `δ`,
the id-set growth, and the closure facts for that edge's endpoints. -/
theorem edgeStep_spec (acc res : List Json × List Json) (e : Json)
    (h : edgeStep acc e = .ok res) :
    ∃ δ, res.2 = acc.2 ++ δ
      ∧ (∀ m ∈ δ, ∃ s : String, s ≠ "" ∧ m = mkSynthNode s
           ∧ isEndpointValue e (Json.str s) ∧ Json.str s ∉ acc.1)
      ∧ (∀ v, v ∈ res.1 ↔ v ∈ acc.1 ∨ ∃ s : String, v = Json.str s ∧ mkSynthNode s ∈ δ)
      ∧ δ.Nodup
      ∧ (∀ v, isEndpointValue e v → v.truthy = true → v ∈ res.1)
      ∧ (∀ s : String, isEndpointValue e (Json.str s) → s ≠ "" → Json.str s ∉ acc.1 →
           mkSynthNode s ∈ δ) := by
  cases e with
  | obj fs =>
    simp only [edgeStep] at h
    have hbind : ∃ acc1, endpointStep acc (objGet fs "source") = .ok acc1
        ∧ endpointStep acc1 (objGet fs "target") = .ok res := by
      cases hsrc : endpointStep acc (objGet fs "source") with
      | error err => rw [hsrc] at h; cases h
      | ok acc1 => exact ⟨acc1, rfl, by rw [hsrc] at h; exact h⟩
    obtain ⟨acc1, h1, h2⟩ := hbind
    have hep : ∀ v, (objGet fs "source" = some v ∨ objGet fs "target" = some v) →
        isEndpointValue (Json.obj fs) v := fun v hv => ⟨fs, rfl, hv⟩
    rcases endpointStep_ok_cases acc acc1 (objGet fs "source") h1 with
      ⟨he1, hk1⟩ | ⟨s1, hS, ht1, hn1, he1⟩ <;>
      rcases endpointStep_ok_cases acc1 res (objGet fs "target") h2 with
        ⟨he2, hk2⟩ | ⟨s2, hT, ht2, hn2, he2⟩
    · -- both endpoints known or absent
      subst he2
      subst he1
      refine ⟨[], by simp, by simp, by simp, List.nodup_nil, ?_, ?_⟩
      · rintro v ⟨fs2, hfs, hv⟩ hvt
        cases hfs
        rcases hv with hv | hv
        · exact hk1 v hv hvt
        · exact hk2 v hv hvt
      · rintro s ⟨fs2, hfs, hv⟩ hs hns
        cases hfs
        rcases hv with hv | hv
        · exact absurd (hk1 _ hv ((truthy_str s).mpr hs)) hns
        · exact absurd (hk2 _ hv ((truthy_str s).mpr hs)) hns
    · -- fresh target only
      subst he1
      subst he2
      refine ⟨[mkSynthNode s2], rfl, ?_, ?_, List.nodup_singleton _, ?_, ?_⟩
      · intro m hm
        rw [List.mem_singleton.mp hm]
        exact ⟨s2, (truthy_str s2).mp ht2, rfl, hep _ (Or.inr hT), hn2⟩
      · intro v
        constructor
        · intro hv
          rcases List.mem_cons.mp hv with hv | hv
          · exact Or.inr ⟨s2, hv, List.mem_singleton.mpr rfl⟩
          · exact Or.inl hv
        · rintro (hv | ⟨s, hveq, hm⟩)
          · exact List.mem_cons_of_mem _ hv
          · rw [hveq, mkSynthNode_inj (List.mem_singleton.mp hm)]
            exact List.mem_cons_self _ _
      · rintro v ⟨fs2, hfs, hv⟩ hvt
        cases hfs
        rcases hv with hv | hv
        · exact List.mem_cons_of_mem _ (hk1 v hv hvt)
        · rw [Option.some_inj.mp (hv.symm.trans hT)]
          exact List.mem_cons_self _ _
      · rintro s ⟨fs2, hfs, hv⟩ hs hns
        cases hfs
        rcases hv with hv | hv
        · exact absurd (hk1 _ hv ((truthy_str s).mpr hs)) hns
        · have heq : Json.str s = Json.str s2 := Option.some_inj.mp (hv.symm.trans hT)
          rw [List.mem_singleton, show s = s2 from by cases heq; rfl]
    · -- fresh source only
      subst he2
      subst he1
      refine ⟨[mkSynthNode s1], rfl, ?_, ?_, List.nodup_singleton _, ?_, ?_⟩
      · intro m hm
        rw [List.mem_singleton.mp hm]
        exact ⟨s1, (truthy_str s1).mp ht1, rfl, hep _ (Or.inl hS), hn1⟩
      · intro v
        constructor
        · intro hv
          rcases List.mem_cons.mp hv with hv | hv
          · exact Or.inr ⟨s1, hv, List.mem_singleton.mpr rfl⟩
          · exact Or.inl hv
        · rintro (hv | ⟨s, hveq, hm⟩)
          · exact List.mem_cons_of_mem _ hv
          · rw [hveq, mkSynthNode_inj (List.mem_singleton.mp hm)]
            exact List.mem_cons_self _ _
      · rintro v ⟨fs2, hfs, hv⟩ hvt
        cases hfs
        rcases hv with hv | hv
        · rw [Option.some_inj.mp (hv.symm.trans hS)]
          exact List.mem_cons_self _ _
        · exact hk2 v hv hvt
      · rintro s ⟨fs2, hfs, hv⟩ hs hns
        cases hfs
        rcases hv with hv | hv
        · have heq : Json.str s = Json.str s1 := Option.some_inj.mp (hv.symm.trans hS)
          rw [List.mem_singleton, show s = s1 from by cases heq; rfl]
        · have hmem := hk2 _ hv ((truthy_str s).mpr hs)
          rcases List.mem_cons.mp hmem with hm | hm
          · rw [List.mem_singleton, show s = s1 from by cases hm; rfl]
          · exact absurd hm hns
    · -- both endpoints fresh
      subst he1
      subst he2
      have hs2ne : s2 ≠ s1 := fun hss => hn2 (hss ▸ List.mem_cons_self _ _)
      have hn2' : Json.str s2 ∉ acc.1 := fun hmem => hn2 (List.mem_cons_of_mem _ hmem)
      refine ⟨[mkSynthNode s1, mkSynthNode s2], by simp, ?_, ?_, ?_, ?_, ?_⟩
      · intro m hm
        rcases List.mem_cons.mp hm with hm | hm
        · rw [hm]
          exact ⟨s1, (truthy_str s1).mp ht1, rfl, hep _ (Or.inl hS), hn1⟩
        · rw [List.mem_singleton.mp hm]
          exact ⟨s2, (truthy_str s2).mp ht2, rfl, hep _ (Or.inr hT), hn2'⟩
      · intro v
        constructor
        · intro hv
          rcases List.mem_cons.mp hv with hv | hv
          · exact Or.inr ⟨s2, hv, List.mem_cons_of_mem _ (List.mem_singleton.mpr rfl)⟩
          rcases List.mem_cons.mp hv with hv | hv
          · exact Or.inr ⟨s1, hv, List.mem_cons_self _ _⟩
          · exact Or.inl hv
        · rintro (hv | ⟨s, hveq, hm⟩)
          · exact List.mem_cons_of_mem _ (List.mem_cons_of_mem _ hv)
          rcases List.mem_cons.mp hm with hm | hm
          · rw [hveq, mkSynthNode_inj hm]
            exact List.mem_cons_of_mem _ (List.mem_cons_self _ _)
          · rw [hveq, mkSynthNode_inj (List.mem_singleton.mp hm)]
            exact List.mem_cons_self _ _
      · rw [List.nodup_cons]
        refine ⟨?_, List.nodup_singleton _⟩
        rw [List.mem_singleton]
        intro hm
        exact hs2ne (mkSynthNode_inj hm).symm
      · rintro v ⟨fs2, hfs, hv⟩ hvt
        cases hfs
        rcases hv with hv | hv
        · rw [Option.some_inj.mp (hv.symm.trans hS)]
          exact List.mem_cons_of_mem _ (List.mem_cons_self _ _)
        · rw [Option.some_inj.mp (hv.symm.trans hT)]
          exact List.mem_cons_self _ _
      · rintro s ⟨fs2, hfs, hv⟩ hs hns
        cases hfs
        rcases hv with hv | hv
        · have heq : Json.str s = Json.str s1 := Option.some_inj.mp (hv.symm.trans hS)
          exact (show s = s1 from by cases heq; rfl) ▸ List.mem_cons_self _ _
        · have heq : Json.str s = Json.str s2 := Option.some_inj.mp (hv.symm.trans hT)
          exact (show s = s2 from by cases heq; rfl) ▸
            List.mem_cons_of_mem _ (List.mem_cons_self _ _)
  | null => simp [edgeStep] at h
  | bool b => simp [edgeStep] at h
  | num r => simp [edgeStep] at h
  | str s => simp [edgeStep] at h
  | arr xs => simp [edgeStep] at h

end AuraAI

namespace AuraAI

/-- The synthetic-node repair loop over a whole edge list: the appended
nodes are exactly one fresh synthetic node per distinct truthy string
endpoint not among the incoming ids, and every truthy endpoint ends up
in the final id set. -/
theorem edgeFold_spec :
    ∀ (es : List Json) (acc res : List Json × List Json),
      es.foldlM edgeStep acc = .ok res →
      ∃ synth, res.2 = acc.2 ++ synth
        ∧ (∀ m ∈ synth, ∃ s : String, s ≠ "" ∧ m = mkSynthNode s
             ∧ (∃ e ∈ es, isEndpointValue e (Json.str s)) ∧ Json.str s ∉ acc.1)
        ∧ (∀ v, v ∈ res.1 ↔ v ∈ acc.1 ∨ ∃ s : String, v = Json.str s ∧ mkSynthNode s ∈ synth)
        ∧ synth.Nodup
        ∧ (∀ e ∈ es, ∀ v, isEndpointValue e v → v.truthy = true → v ∈ res.1)
        ∧ (∀ s : String, (∃ e ∈ es, isEndpointValue e (Json.str s)) → s ≠ "" →
             Json.str s ∉ acc.1 → mkSynthNode s ∈ synth) := by
  intro es
  induction es with
  | nil =>
    intro acc res h
    simp only [List.foldlM_nil] at h
    cases h
    refine ⟨[], by simp, by simp, ?_, List.nodup_nil, by simp, by simp⟩
    intro v
    simp
  | cons e rest ih =>
    intro acc res h
    rw [List.foldlM_cons] at h
    have hbind : ∃ acc1, edgeStep acc e = .ok acc1
        ∧ rest.foldlM edgeStep acc1 = .ok res := by
      cases hstep : edgeStep acc e with
      | error err => rw [hstep] at h; cases h
      | ok acc1 => exact ⟨acc1, rfl, by rw [hstep] at h; exact h⟩
    obtain ⟨acc1, h1, h2⟩ := hbind
    obtain ⟨δ, hd1, hd2, hd3, hd4, hd5, hd6⟩ := edgeStep_spec acc acc1 e h1
    obtain ⟨synthR, hr1, hr2, hr3, hr4, hr5, hr6⟩ := ih acc1 res h2
    have hmono : ∀ v, v ∈ acc.1 → v ∈ acc1.1 := fun v hv => (hd3 v).mpr (Or.inl hv)
    refine ⟨δ ++ synthR, ?_, ?_, ?_, ?_, ?_, ?_⟩
    · rw [hr1, hd1, List.append_assoc]
    · intro m hm
      rcases List.mem_append.mp hm with hm | hm
      · obtain ⟨s, hs1, hs2, hs3, hs4⟩ := hd2 m hm
        exact ⟨s, hs1, hs2, ⟨e, List.mem_cons_self _ _, hs3⟩, hs4⟩
      · obtain ⟨s, hs1, hs2, ⟨e2, he2, hs3⟩, hs4⟩ := hr2 m hm
        exact ⟨s, hs1, hs2, ⟨e2, List.mem_cons_of_mem _ he2, hs3⟩,
          fun hmem => hs4 (hmono _ hmem)⟩
    · intro v
      rw [hr3 v]
      constructor
      · rintro (hv | ⟨s, hveq, hm⟩)
        · rcases (hd3 v).mp hv with hv | ⟨s, hveq, hm⟩
          · exact Or.inl hv
          · exact Or.inr ⟨s, hveq, List.mem_append_left _ hm⟩
        · exact Or.inr ⟨s, hveq, List.mem_append_right _ hm⟩
      · rintro (hv | ⟨s, hveq, hm⟩)
        · exact Or.inl (hmono v hv)
        · rcases List.mem_append.mp hm with hm | hm
          · exact Or.inl ((hd3 v).mpr (Or.inr ⟨s, hveq, hm⟩))
          · exact Or.inr ⟨s, hveq, hm⟩
    · rw [List.nodup_append]
      refine ⟨hd4, hr4, ?_⟩
      intro m hmδ hmR
      obtain ⟨s, _, hs2, _, _⟩ := hd2 m hmδ
      obtain ⟨s2, _, hs2b, _, hs4b⟩ := hr2 m hmR
      have hsin : Json.str s ∈ acc1.1 :=
        (hd3 _).mpr (Or.inr ⟨s, rfl, hs2 ▸ hmδ⟩)
      rw [hs2] at hs2b
      rw [mkSynthNode_inj hs2b] at hsin
      exact hs4b hsin
    · intro e2 he2 v hv hvt
      rcases List.mem_cons.mp he2 with he2 | he2
      · subst he2
        have := hd5 v hv hvt
        exact (hr3 v).mpr (Or.inl this)
      · exact hr5 e2 he2 v hv hvt
    · rintro s ⟨e2, he2, hv⟩ hs hns
      rcases List.mem_cons.mp he2 with he2 | he2
      · subst he2
        exact List.mem_append_left _ (hd6 s hv hs hns)
      · by_cases hmem : Json.str s ∈ acc1.1
        · rcases (hd3 _).mp hmem with hm | ⟨s3, heq, hm⟩
          · exact absurd hm hns
          · rw [show s = s3 from by cases heq; rfl]
            exact List.mem_append_left _ hm
        · exact List.mem_append_right _ (hr6 s ⟨e2, he2, hv⟩ hs hmem)

end AuraAI

namespace AuraAI

instance : DecidableEq (Except Unit RawGraph) := fun x y =>
  match x, y with
  | .ok a, .ok b =>
    if h : a = b then isTrue (by rw [h]) else isFalse (fun hh => by cases hh; exact h rfl)
  | .error a, .error b => isTrue (by cases a; cases b; rfl)
  | .ok _, .error _ => isFalse nofun
  | .error _, .ok _ => isFalse nofun

theorem processArrays_ok (ns es : List Json) (g : RawGraph)
    (h : processArrays ns es = .ok g) :
    g.edges = es ∧ ∃ ids0 res, ns.mapM getIdVal = .ok ids0
      ∧ es.foldlM edgeStep (ids0, []) = .ok res ∧ g.nodes = ns ++ res.2 := by
  unfold processArrays at h
  cases hids : ns.mapM getIdVal with
  | error err => simp only [hids, bind, Except.bind] at h; cases h
  | ok ids0 =>
    simp only [hids, bind, Except.bind] at h
    cases hfold : es.foldlM edgeStep (ids0, []) with
    | error err => simp only [hfold] at h; cases h
    | ok res =>
      simp only [hfold] at h
      cases h
      exact ⟨rfl, ids0, res, rfl, hfold, rfl⟩

theorem parse_ok_inversion (content : String) (g : RawGraph)
    (h : parse_json_response content = .ok g) :
    g = ⟨[], []⟩ ∨ ∃ ns es, processArrays ns es = .ok g := by
  unfold parse_json_response at h
  cases hb : braceSlice (stripFences content.toList) with
  | none => simp only [hb] at h; cases h; exact Or.inl rfl
  | some sub =>
    simp only [hb] at h
    cases hd : jsonDecode sub with
    | none => simp only [hd] at h; cases h; exact Or.inl rfl
    | some v =>
      simp only [hd] at h
      unfold postprocess at h
      cases v with
      | obj fs =>
        cases hn : (objGet fs "nodes").getD (.arr []) <;>
          cases he : (objGet fs "edges").getD (.arr []) <;>
            simp only [hn, he] at h <;>
            first
            | (cases h)
            | (exact Or.inr ⟨_, _, h⟩)
      | null => cases h
      | bool b => cases h
      | num r => cases h
      | str s => cases h
      | arr xs => cases h

/-- C2 (amended): whenever the JSON extraction step returns a graph,
every edge endpoint value that is truthy (in particular every non-empty
string endpoint) is the `id` of some node in the returned node list.
Empty-string (falsy) endpoints may dangle. -/
theorem C2_referential_closure (content : String) (g : RawGraph)
    (h : parse_json_response content = Except.ok g) :
    ∀ e ∈ g.edges, ∀ v, isEndpointValue e v → v.truthy = true → v ∈ idVals g.nodes := by
  rcases parse_ok_inversion content g h with hg | ⟨ns, es, hp⟩
  · subst hg
    intro e he
    cases he
  · obtain ⟨hedges, ids0, res, hids, hfold, hnodes⟩ := processArrays_ok ns es g hp
    obtain ⟨synth, hs1, _, hs3, _, hs5, _⟩ := edgeFold_spec es (ids0, []) res hfold
    intro e he v hv hvt
    rw [hedges] at he
    have hvres := hs5 e he v hv hvt
    rw [hnodes, idVals_append]
    rcases (hs3 v).mp hvres with hv0 | ⟨s, hveq, hm⟩
    · apply List.mem_append_left
      rw [← mapM_getIdVal_eq ns ids0 hids]
      exact hv0
    · apply List.mem_append_right
      rw [hveq]
      apply mkSynthNode_mem_idVals
      rw [show res.2 = synth from by simpa using hs1]
      exact hm

/-- Counterexample to C2 as stated: a valid JSON object with an
empty-string `source` yields a returned edge whose `source` is not the
id of any returned node. -/
theorem C2_counterexample :
    parse_json_response "\x7b\"nodes\":[],\"edges\":[\x7b\"source\":\"\",\"target\":\"y\"\x7d]\x7d"
      = Except.ok ⟨[mkSynthNode "y"],
          [Json.obj [("source", Json.str ""), ("target", Json.str "y")]]⟩
    ∧ objGet [("source", Json.str ""), ("target", Json.str "y")] "source"
        = some (Json.str "")
    ∧ Json.str "" ∉ idVals [mkSynthNode "y"] :=
  ⟨by decide, rfl, by decide⟩

theorem C2_referential_closure_witness :
    Json.str "a" ∈ idVals [mkSynthNode "a", mkSynthNode "b"] := by
  apply C2_referential_closure
    "\x7b\"nodes\":[],\"edges\":[\x7b\"source\":\"a\",\"target\":\"b\"\x7d]\x7d"
    ⟨[mkSynthNode "a", mkSynthNode "b"],
     [Json.obj [("source", Json.str "a"), ("target", Json.str "b")]]⟩
    (by decide)
    (Json.obj [("source", Json.str "a"), ("target", Json.str "b")])
    (List.mem_cons_self _ _)
    (Json.str "a")
    ⟨[("source", Json.str "a"), ("target", Json.str "b")], rfl, Or.inl rfl⟩
    (by decide)

end AuraAI

namespace AuraAI

/-- C8: during extraction, every non-empty string endpoint of an edge
that is absent from the declared node-id set gives rise to exactly one
appended synthetic node, whose id is the endpoint, whose label is the
humanized id (underscores to spaces, then title case) and whose
description is empty; concretely, the fenced input with an empty nodes
array and one edge x → y yields the 2-node 1-edge graph with labels "X"
and "Y" and both endpoints resolvable among the returned node ids. -/
theorem C8_synthetic_nodes :
    (∀ (ns es : List Json) (g : RawGraph), processArrays ns es = Except.ok g →
       ∀ s : String, s ≠ "" →
       (∃ e ∈ es, isEndpointValue e (Json.str s)) →
       Json.str s ∉ idVals ns →
       g.nodes.count (mkSynthNode s) = 1
         ∧ mkSynthNode s = Json.obj [("id", Json.str s),
             ("label", Json.str (humanize s)), ("description", Json.str "")])
    ∧ parse_json_response
        "```json\n\x7b\"nodes\":[],\"edges\":[\x7b\"source\":\"x\",\"target\":\"y\"\x7d]\x7d\n```"
        = Except.ok ⟨[mkSynthNode "x", mkSynthNode "y"],
            [Json.obj [("source", Json.str "x"), ("target", Json.str "y")]]⟩
    ∧ humanize "x" = "X" ∧ humanize "y" = "Y"
    ∧ Json.str "x" ∈ idVals [mkSynthNode "x", mkSynthNode "y"]
    ∧ Json.str "y" ∈ idVals [mkSynthNode "x", mkSynthNode "y"] := by
  refine ⟨?_, by decide, by decide, by decide, by decide, by decide⟩
  intro ns es g hp s hs hexist hnot
  obtain ⟨hedges, ids0, res, hids, hfold, hnodes⟩ := processArrays_ok ns es g hp
  obtain ⟨synth, hs1, hs2, hs3, hs4, hs5, hs6⟩ := edgeFold_spec es (ids0, []) res hfold
  have hids0 : ids0 = idVals ns := mapM_getIdVal_eq ns ids0 hids
  have hmem : mkSynthNode s ∈ synth := by
    apply hs6 s hexist hs
    show Json.str s ∉ ids0
    rw [hids0]
    exact hnot
  refine ⟨?_, rfl⟩
  rw [hnodes, List.count_append]
  have hc0 : ns.count (mkSynthNode s) = 0 := by
    rw [List.count_eq_zero]
    intro hin
    exact hnot (mkSynthNode_mem_idVals hin)
  have hr2 : res.2 = synth := by simpa using hs1
  rw [hc0, hr2, List.count_eq_one_of_mem hs4 hmem]

theorem C8_synthetic_nodes_witness :
    ([mkSynthNode "x", mkSynthNode "y"] : List Json).count (mkSynthNode "x") = 1
      ∧ mkSynthNode "x" = Json.obj [("id", Json.str "x"),
          ("label", Json.str (humanize "x")), ("description", Json.str "")] :=
  C8_synthetic_nodes.1 []
    [Json.obj [("source", Json.str "x"), ("target", Json.str "y")]]
    ⟨[mkSynthNode "x", mkSynthNode "y"],
      [Json.obj [("source", Json.str "x"), ("target", Json.str "y")]]⟩
    (by decide) "x" (by decide)
    ⟨Json.obj [("source", Json.str "x"), ("target", Json.str "y")],
      List.mem_cons_self _ _,
      ⟨[("source", Json.str "x"), ("target", Json.str "y")], rfl, Or.inl rfl⟩⟩
    (by decide)

end AuraAI

namespace AuraAI

/-- C1 (amended): when the fence-stripped content has no brace window or
its brace window fails to decode as JSON, `_parse_json_response` returns
the empty graph (nodes = [], edges = []) without raising, and concept
extraction passes that empty graph through unchanged; the heuristic
fallback extractor is not invoked on parse failures (it only runs when
an exception escapes, e.g. an upstream call failure). -/
theorem C1_parse_failure_empty (content inputText : String)
    (h : braceSlice (stripFences content.toList) = none
       ∨ ∃ sub, braceSlice (stripFences content.toList) = some sub ∧ jsonDecode sub = none) :
    parse_json_response content = Except.ok ⟨[], []⟩
      ∧ extractConceptGraph content inputText = ⟨[], []⟩ := by
  have hp : parse_json_response content = Except.ok ⟨[], []⟩ := by
    unfold parse_json_response
    rcases h with h | ⟨sub, h1, h2⟩
    · rw [h]
    · simp only [h1, h2]
  refine ⟨hp, ?_⟩
  unfold extractConceptGraph
  rw [hp]

theorem C1_parse_failure_empty_witness :
    (braceSlice (stripFences "hello".toList) = none
       ∨ ∃ sub, braceSlice (stripFences "hello".toList) = some sub ∧ jsonDecode sub = none)
    ∧ (parse_json_response "hello" = Except.ok ⟨[], []⟩
       ∧ extractConceptGraph "hello" "hello" = ⟨[], []⟩) :=
  ⟨Or.inl (by decide), C1_parse_failure_empty "hello" "hello" (Or.inl (by decide))⟩

/-- Counterexample to C1 as stated: on plain prose the extraction
returns the empty graph, not the heuristic fallback graph; in
particular the result has no root node at all, while the fallback for
the same text would have a root plus one branch. -/
theorem C1_counterexample :
    extractConceptGraph "hello" "hello" = (⟨[], []⟩ : RawGraph)
      ∧ (extractConceptGraph "hello" "hello").nodes = []
      ∧ (generate_fallback_graph "hello").nodes.length = 2
      ∧ extractConceptGraph "hello" "hello" ≠ generate_fallback_graph "hello" :=
  ⟨by decide, by decide, by decide, by decide⟩

end AuraAI

namespace AuraAI

/-- C9: for every input text the heuristic fallback graph is a root node
`central` labeled "Main Topic" followed, in token order, by one branch
node per kept token — the first 100 whitespace-delimited tokens,
filtered to purely alphabetic tokens longer than 4 characters, truncated
to the first 6 — where branch i has id `branch_i` and label the token
capitalized, together with one unlabeled edge from `central` to each
`branch_i`. -/
theorem C9_fallback_structure (text : String) :
    ((generate_fallback_graph text).nodes.length
        = ((((pySplit text).take 100).filter (fun w => w.length > 4 && pyIsAlpha w)).take 6).length
            + 1)
      ∧ (generate_fallback_graph text).nodes[0]?
          = some (Json.obj [("id", Json.str "central"), ("label", Json.str "Main Topic"),
              ("description", Json.str "")])
      ∧ (∀ i : Nat, (generate_fallback_graph text).nodes[i + 1]?
          = ((((pySplit text).take 100).filter
                (fun w => w.length > 4 && pyIsAlpha w)).take 6)[i]?.map
              (fun w => Json.obj [("id", Json.str ("branch_" ++ Nat.repr i)),
                  ("label", Json.str (pyCapitalize w)), ("description", Json.str "")]))
      ∧ ((generate_fallback_graph text).edges.length
          = ((((pySplit text).take 100).filter (fun w => w.length > 4 && pyIsAlpha w)).take 6).length)
      ∧ (∀ i : Nat, (generate_fallback_graph text).edges[i]?
          = ((((pySplit text).take 100).filter
                (fun w => w.length > 4 && pyIsAlpha w)).take 6)[i]?.map
              (fun _ => Json.obj [("source", Json.str "central"),
                  ("target", Json.str ("branch_" ++ Nat.repr i)), ("label", Json.str "")])) := by
  have hnodes : (generate_fallback_graph text).nodes
      = Json.obj [("id", Json.str "central"), ("label", Json.str "Main Topic"),
            ("description", Json.str "")]
        :: ((((pySplit text).take 100).filter
              (fun w => w.length > 4 && pyIsAlpha w)).take 6).enum.map
            (fun p => Json.obj [("id", Json.str ("branch_" ++ Nat.repr p.1)),
                ("label", Json.str (pyCapitalize p.2)), ("description", Json.str "")]) := rfl
  have hedges : (generate_fallback_graph text).edges
      = ((((pySplit text).take 100).filter
            (fun w => w.length > 4 && pyIsAlpha w)).take 6).enum.map
          (fun p => Json.obj [("source", Json.str "central"),
              ("target", Json.str ("branch_" ++ Nat.repr p.1)), ("label", Json.str "")]) := rfl
  refine ⟨?_, ?_, ?_, ?_, ?_⟩
  · rw [hnodes]
    simp [List.enum_length]
  · rw [hnodes]
    exact List.getElem?_cons_zero
  · intro i
    rw [hnodes, List.getElem?_cons_succ, List.getElem?_map, List.getElem?_enum]
    cases hk : ((((pySplit text).take 100).filter
        (fun w => w.length > 4 && pyIsAlpha w)).take 6)[i]? <;> rfl
  · rw [hedges]
    simp [List.enum_length]
  · intro i
    rw [hedges, List.getElem?_map, List.getElem?_enum]
    cases hk : ((((pySplit text).take 100).filter
        (fun w => w.length > 4 && pyIsAlpha w)).take 6)[i]? <;> rfl

end AuraAI
